import Mathlib

/-!
Deception framework: rule table, matcher and control-command interpreter.

A shallow embedding of `kernel/deception/core.c`, `table.c`, `proc.c`,
`regex.c` and `hooks.c`.

* C strings (`char *`) are `Option (List Char)`: `none` is the NULL pointer,
  `some s` a NUL-terminated string with content `s`.
* `struct cgroup *` is `Option Nat`: `none` is NULL, `some a` a cgroup identity.
* `int`, `pid_t` and `atomic_t` values are `Int`; `atomic_inc_return` wraps to
  32 bits (`wrap32`).
* The kernel list `entries` is a `List` in list order (`list_add_tail` appends).
* The module globals `deception_table` (a pointer) and `deception_enabled`
  form the record `Module`.
* The spin lock is not modelled: every operation is one atomic step.
-/

namespace Deception

/-! ## Constants of the kernel headers (not part of this source tree) -/

/-- Error number `ENOENT` of `errno-base.h`. -/
def ENOENT : Int := 2

/-- Error number `ENOMEM` of `errno-base.h`. -/
def ENOMEM : Int := 12

/-- Error number `EFAULT` of `errno-base.h`. -/
def EFAULT : Int := 14

/-- Error number `EINVAL` of `errno-base.h`. -/
def EINVAL : Int := 22

/-- Value of a C `int` after two's-complement wrap-around to 32 bits. -/
def wrap32 (x : Int) : Int := (x + 2147483648) % 4294967296 - 2147483648

/-! ## Data model (`core.h`) -/

/-- The record `struct syscall_hook_entry` (the `list` link is the position in
the table's list). -/
structure syscall_hook_entry where
  syscall_number : Int
  pattern : Option (List Char)
  replacement : Option (List Char)
  target_container : Option Nat
  target_pid : Int
  flags : Nat
  rule_id : Int
deriving DecidableEq

/-- The record `struct deception_table` (without the lock). -/
structure deception_table where
  entries : List syscall_hook_entry
  refcount : Int
  next_rule_id : Int
deriving DecidableEq

/-- Module globals of `core.c`: the pointer `deception_table` (here `table`)
and the module parameter `deception_enabled`. -/
structure Module where
  table : Option deception_table
  deception_enabled : Bool
deriving DecidableEq

/-- Module state at load time: `deception_table = NULL`, `deception_enabled = true`. -/
def Module.boot : Module := { table := none, deception_enabled := true }

/-- The rules linked into the table, in list order (none when the table pointer is NULL). -/
def Module.rules (m : Module) : List syscall_hook_entry :=
  match m.table with
  | none => []
  | some t => t.entries

/-- Writing the module parameter `deception_enabled`. -/
def set_enabled (m : Module) (b : Bool) : Module := { m with deception_enabled := b }

/-! ## `core.c` -/

/-- The function `deception_init`; `kzalloc_ok` is the outcome of the table allocation. -/
def deception_init (kzalloc_ok : Bool) (m : Module) : Module × Int :=
  if kzalloc_ok then
    ({ m with table := some { entries := [], refcount := 1, next_rule_id := 1 } }, 0)
  else
    ({ m with table := none }, -ENOMEM)

/-- The function `container_matches`. -/
def container_matches (task_container target_container : Option Nat) : Bool :=
  match target_container with
  | none => true
  | some target =>
    match task_container with
    | none => false
    | some task => decide (task = target)

/-- The function `deception_table_add_rule`; `entry = none` is a NULL entry pointer. -/
def deception_table_add_rule (m : Module) (entry : Option syscall_hook_entry) : Module × Int :=
  match m.table, entry with
  | some t, some e =>
    let id := wrap32 (t.next_rule_id + 1)
    let linked : syscall_hook_entry := { e with rule_id := id }
    let t' : deception_table :=
      { entries := t.entries ++ [linked], refcount := t.refcount, next_rule_id := id }
    ({ m with table := some t' }, id)
  | _, _ => (m, -EINVAL)

/-- Loop of `deception_table_remove_rule`: unlink the first entry with the given id;
`none` when the loop ends with `found = 0`. -/
def remove_loop (rule_id : Int) : List syscall_hook_entry → Option (List syscall_hook_entry)
  | [] => none
  | e :: es =>
    if e.rule_id = rule_id then some es
    else
      match remove_loop rule_id es with
      | none => none
      | some es' => some (e :: es')

/-- The function `deception_table_remove_rule`. -/
def deception_table_remove_rule (m : Module) (rule_id : Int) : Module × Int :=
  match m.table with
  | none => (m, -EINVAL)
  | some t =>
    match remove_loop rule_id t.entries with
    | some es => ({ m with table := some { t with entries := es } }, 0)
    | none => (m, -ENOENT)

/-- Loop of `deception_table_clear`: unlink every entry in turn. -/
def clear_loop : List syscall_hook_entry → List syscall_hook_entry
  | [] => []
  | _ :: es => clear_loop es

/-- The function `deception_table_clear`. -/
def deception_table_clear (m : Module) : Module × Int :=
  match m.table with
  | none => (m, -EINVAL)
  | some t => ({ m with table := some { t with entries := clear_loop t.entries } }, 0)

/-- Loop of `deception_table_find_match` over the list; `current_pid` is `current->pid`. -/
def find_loop (syscall : Int) (container : Option Nat) (current_pid : Int) :
    List syscall_hook_entry → Option syscall_hook_entry
  | [] => none
  | entry :: rest =>
    if entry.syscall_number = syscall then
      if container_matches container entry.target_container = true then
        if entry.target_pid = 0 ∨ entry.target_pid = current_pid then some entry
        else find_loop syscall container current_pid rest
      else find_loop syscall container current_pid rest
    else find_loop syscall container current_pid rest

/-- The function `deception_table_find_match`; `arg` is unused by the code and
`current_pid` is the pid of the calling task (`current->pid`). -/
def deception_table_find_match (m : Module) (syscall : Int) (_arg : Option (List Char))
    (container : Option Nat) (current_pid : Int) : Option syscall_hook_entry :=
  match m.table with
  | none => none
  | some t =>
    if m.deception_enabled = false then none
    else find_loop syscall container current_pid t.entries

/-! ## `table.c` -/

/-- The function `deception_create_rule`; the three booleans are the outcomes of
the `kzalloc` of the entry and of the `kstrdup` of pattern and replacement.
`none` is the NULL result. The entry comes zeroed from `kzalloc`, so `rule_id = 0`
and an absent pattern or replacement stays NULL. -/
def deception_create_rule (kzalloc_ok kstrdup_pattern_ok kstrdup_replacement_ok : Bool)
    (syscall_number : Int) (pattern replacement : Option (List Char))
    (container : Option Nat) (target_pid : Int) (flags : Nat) : Option syscall_hook_entry :=
  if kzalloc_ok = false then none
  else
    let entry0 : syscall_hook_entry :=
      { syscall_number := syscall_number, pattern := none, replacement := none,
        target_container := container, target_pid := target_pid, flags := flags,
        rule_id := 0 }
    let step1 : Option syscall_hook_entry :=
      match pattern with
      | none => some entry0
      | some p => if kstrdup_pattern_ok = false then none else some { entry0 with pattern := some p }
    match step1 with
    | none => none
    | some entry1 =>
      match replacement with
      | none => some entry1
      | some r =>
        if kstrdup_replacement_ok = false then none
        else some { entry1 with replacement := some r }

/-! ## `proc.c` -/

/-- Outcomes of the allocator and user-copy calls made during one write. -/
structure WriteEnv where
  kzalloc_data : Bool
  copy_from_user_ok : Bool
  kzalloc_entry : Bool
  kstrdup_pattern : Bool
  kstrdup_replacement : Bool
deriving DecidableEq

/-- The environment in which every allocation and the user copy succeed. -/
def WriteEnv.ok : WriteEnv :=
  { kzalloc_data := true, copy_from_user_ok := true, kzalloc_entry := true,
    kstrdup_pattern := true, kstrdup_replacement := true }

/-- The C string held by the zero-filled buffer of `count + 1` bytes after the
user bytes are copied in: the bytes before the first NUL. -/
def c_string (buffer : List Char) : List Char :=
  buffer.takeWhile (fun c => decide (c ≠ Char.ofNat 0))

/-- Scan of `strsep`: the token before the first delimiter and what follows it
(`none` when no delimiter occurs). -/
def strsep_scan (ct : List Char) : List Char → List Char × Option (List Char)
  | [] => ([], none)
  | c :: cs =>
    if c ∈ ct then ([], some cs)
    else ((c :: (strsep_scan ct cs).1), (strsep_scan ct cs).2)

/-- The library function `strsep`: returns the token and the updated `*stringp`. -/
def strsep (stringp : Option (List Char)) (ct : List Char) :
    Option (List Char) × Option (List Char) :=
  match stringp with
  | none => (none, none)
  | some s => (some (strsep_scan ct s).1, (strsep_scan ct s).2)

/-- The function `deception_proc_write`. `NR_uname` is the architecture's value of
`__NR_uname`; `buffer` holds the `count` user bytes. When `deception_table_add_rule`
returns a negative value the entry is destroyed but the list is left as the add made it. -/
def deception_proc_write (NR_uname : Int) (env : WriteEnv) (m : Module) (buffer : List Char) :
    Module × Int :=
  let ret : Int := wrap32 (Int.ofNat buffer.length)
  if env.kzalloc_data = false then (m, -ENOMEM)
  else if env.copy_from_user_ok = false then (m, -EFAULT)
  else
    let data0 : Option (List Char) := some (c_string buffer)
    let cmd := (strsep data0 [':']).1
    let data1 := (strsep data0 [':']).2
    match cmd with
    | none => (m, -EINVAL)
    | some cmd =>
      if cmd = ['a', 'd', 'd'] then
        let syscall := (strsep data1 [':']).1
        let data2 := (strsep data1 [':']).2
        let pattern := (strsep data2 [':']).1
        let data3 := (strsep data2 [':']).2
        let replacement := (strsep data3 [':']).1
        let data4 := (strsep data3 [':']).2
        let _container := (strsep data4 [':']).1
        match syscall with
        | none => (m, -EINVAL)
        | some _ =>
          match deception_create_rule env.kzalloc_entry env.kstrdup_pattern
              env.kstrdup_replacement NR_uname pattern replacement none 0 0 with
          | none => (m, -ENOMEM)
          | some entry =>
            if (deception_table_add_rule m (some entry)).2 < 0 then
              ((deception_table_add_rule m (some entry)).1, -EINVAL)
            else ((deception_table_add_rule m (some entry)).1, ret)
      else if cmd = ['c', 'l', 'e', 'a', 'r'] then ((deception_table_clear m).1, ret)
      else (m, -EINVAL)

/-! ## Operation sequences on the table -/

/-- A table-mutating call: add, remove by id, or clear. -/
inductive Op where
  | add (entry : Option syscall_hook_entry)
  | remove (rule_id : Int)
  | clear
deriving DecidableEq

/-- The module state after one operation. -/
def step (m : Module) : Op → Module
  | Op.add entry => (deception_table_add_rule m entry).1
  | Op.remove rule_id => (deception_table_remove_rule m rule_id).1
  | Op.clear => (deception_table_clear m).1

/-- The id returned by an operation, when it is an add that links its entry. -/
def added_id (m : Module) : Op → Option Int
  | Op.add (some e) =>
    match m.table with
    | some _ => some (deception_table_add_rule m (some e)).2
    | none => none
  | _ => none

/-- The module state after a sequence of operations. -/
def run : Module → List Op → Module
  | m, [] => m
  | m, op :: ops => run (step m op) ops

/-- The ids returned by the adds of a sequence that linked their entry, in call order. -/
def returned_ids : Module → List Op → List Int
  | _, [] => []
  | m, op :: ops => (added_id m op).toList ++ returned_ids (step m op) ops

/-- One for an add with a non-NULL entry, zero for any other operation. -/
def counts_as_add : Op → Nat
  | Op.add (some _) => 1
  | _ => 0

/-- Number of adds with a non-NULL entry in a sequence. -/
def add_count : List Op → Nat
  | [] => 0
  | op :: ops => counts_as_add op + add_count ops

/-- The table right after a successful `deception_init`. -/
def fresh (m : Module) : Module := (deception_init true m).1

/-- The ids of the rules linked into the table, in list order. -/
def live_ids (m : Module) : List Int := m.rules.map (fun e => e.rule_id)

/-- The sequence add, clear repeated `n` times. -/
def add_clear_cycles (e : syscall_hook_entry) : Nat → List Op
  | 0 => []
  | n + 1 => Op.add (some e) :: Op.clear :: add_clear_cycles e n

/-- The sequence of `n` rounds "add a rule, remove the rule just added", for a
table whose id counter holds `c` at the start. -/
def add_remove_cycles (e : syscall_hook_entry) : Nat → Int → List Op
  | 0, _ => []
  | n + 1, c =>
    Op.add (some e) :: Op.remove (wrap32 (c + 1)) :: add_remove_cycles e n (wrap32 (c + 1))

/-- The colon-separated fields of a command string (at least one field). -/
def split_fields (ct : List Char) : List Char → List (List Char)
  | [] => [[]]
  | c :: cs =>
    if c ∈ ct then [] :: split_fields ct cs
    else
      match split_fields ct cs with
      | [] => [[c]]
      | f :: fs => (c :: f) :: fs

/-- A rule with wildcard scope (no container, pid 0) for a syscall. -/
def wildcard_rule (syscall : Int) (replacement : Option (List Char)) : syscall_hook_entry :=
  { syscall_number := syscall, pattern := none, replacement := replacement,
    target_container := none, target_pid := 0, flags := 0, rule_id := 0 }

/-- The scope condition as the specification words it: same syscall, target
container absent or equal to the lookup container, target pid zero or equal to
the caller pid. -/
def claimed_scope (syscall : Int) (container : Option Nat) (pid : Int)
    (r : syscall_hook_entry) : Prop :=
  r.syscall_number = syscall ∧
  (r.target_container = none ∨ r.target_container = container) ∧
  (r.target_pid = 0 ∨ r.target_pid = pid)

instance (syscall : Int) (container : Option Nat) (pid : Int) (r : syscall_hook_entry) :
    Decidable (claimed_scope syscall container pid r) := by
  unfold claimed_scope; infer_instance

/-- The ids handed out by the first `n` successful adds after initialisation:
the counter starts at 1 and is incremented before use. -/
def issued_ids (n : Nat) : List Int := (List.range n).map (fun j => wrap32 (Int.ofNat j + 2))

/-- Invariant of an initialised table after `k` successful adds: the counter holds
the wrapped value of `1 + k` and the live ids are, in order, among the issued ones. -/
def TableInv (k : Nat) (m : Module) : Prop :=
  ∃ t, m.table = some t ∧ t.next_rule_id = wrap32 (1 + Int.ofNat k) ∧
    List.Sublist (live_ids m) (issued_ids k)

/-- The fields still to be read from `*stringp`: none once it is NULL. -/
def fields_of (ct : List Char) : Option (List Char) → List (List Char)
  | none => []
  | some s => split_fields ct s

/-! ## `regex.c` -/

/-- The function `deception_proc_show`: the text written by its three `seq_printf`
calls, in order, and its return value. The table is not consulted. -/
def deception_proc_show (_m : Module) : List String × Int :=
  (["Deception Framework Rules:\n", "========================\n",
    "No rules configured yet.\n"], 0)

/-! ## `hooks.c` -/

/-- The kernel constant `__NEW_UTS_LEN` of `linux/utsname.h`. -/
def NEW_UTS_LEN : Nat := 64

/-- The NUL byte. -/
def NUL : Char := Char.ofNat 0

/-- The record `struct new_utsname`: six fields of `__NEW_UTS_LEN + 1` bytes each,
given as their raw bytes. -/
structure new_utsname where
  sysname : List Char
  nodename : List Char
  release : List Char
  version : List Char
  machine : List Char
  domainname : List Char
deriving DecidableEq

/-- The library function `strlen` on the content of a C string. -/
def strlen (s : List Char) : Nat := s.length

/-- The library function `strncpy`: the first `n` bytes of `dest` become the bytes
of `src`, followed by NUL padding once `src` is exhausted; later bytes of `dest`
stay as they are. -/
def strncpy : List Char → List Char → Nat → List Char
  | dest, _, 0 => dest
  | [], _, _ + 1 => []
  | _ :: ds, [], n + 1 => NUL :: strncpy ds [] n
  | _ :: ds, c :: cs, n + 1 => c :: strncpy ds cs n

/-- The function `get_current_container` of `core.c`: always NULL. -/
def get_current_container : Option Nat := none

/-- The structure `tmp` that `deception_uname_hook` builds on a hit: a copy of the
genuine `utsname()` whose `sysname` is overwritten when the rule has a replacement
shorter than `__NEW_UTS_LEN`. -/
def uname_reply (rule : syscall_hook_entry) (uts : new_utsname) : new_utsname :=
  match rule.replacement with
  | none => uts
  | some r =>
    if strlen r < NEW_UTS_LEN then
      { uts with sysname := (strncpy uts.sysname r (NEW_UTS_LEN - 1)).set (NEW_UTS_LEN - 1) NUL }
    else uts

/-- What surrounds one call of the uname hook: the genuine `utsname()`, the pid of
the caller, the outcome of `copy_to_user`, the kernel helpers `override_release`
(applied to the release field of the caller's buffer) and `override_architecture`
(applied to the caller's buffer), `none` being a fault, and the result of the
original `sys_newuname`. -/
structure UnameEnv where
  utsname : new_utsname
  current_pid : Int
  copy_to_user_ok : Bool
  override_release : List Char → Option (List Char)
  override_architecture : new_utsname → Option new_utsname
  sys_newuname : Int × Option new_utsname

/-- The caller's buffer after `override_release` rewrote its release field. -/
def set_release (u : new_utsname) (rel : List Char) : new_utsname :=
  { sysname := u.sysname, nodename := u.nodename, release := rel, version := u.version,
    machine := u.machine, domainname := u.domainname }

/-- The function `deception_uname_hook`: the return value and the content of the
caller's buffer (`none` when nothing was copied to it). -/
def deception_uname_hook (NR_uname : Int) (env : UnameEnv) (m : Module) :
    Int × Option new_utsname :=
  let container := get_current_container
  match deception_table_find_match m NR_uname none container env.current_pid with
  | some rule =>
    let tmp := uname_reply rule env.utsname
    if env.copy_to_user_ok = false then (-EFAULT, none)
    else
      match env.override_release tmp.release with
      | none => (-EFAULT, some tmp)
      | some rel =>
        match env.override_architecture (set_release tmp rel) with
        | none => (-EFAULT, some (set_release tmp rel))
        | some u => (0, some u)
  | none => env.sys_newuname

/-- A utsname field of `__NEW_UTS_LEN + 1` bytes holding the given text and NUL
padding. -/
def uts_field (s : List Char) : List Char := (s ++ List.replicate 65 NUL).take 65

/-- A sample genuine system identity. -/
def sample_utsname : new_utsname :=
  { sysname := uts_field "Linux".toList, nodename := uts_field "host".toList,
    release := uts_field "6.4.0".toList, version := uts_field "#1 SMP".toList,
    machine := uts_field "x86_64".toList, domainname := uts_field "(none)".toList }

/-- A sample environment of the uname hook: caller pid 7, the copy to the caller
succeeds and the kernel overrides leave the buffer as it is. -/
def sample_uname_env : UnameEnv :=
  { utsname := sample_utsname, current_pid := 7, copy_to_user_ok := true,
    override_release := fun r => some r, override_architecture := fun u => some u,
    sys_newuname := (0, some sample_utsname) }

/-! ## Lemmas on the matcher and the lookup loop -/

theorem container_matches_iff (task target : Option Nat) :
    container_matches task target = true ↔ (target = none ∨ target = task) := by
  cases target with
  | none => simp [container_matches]
  | some a =>
    cases task with
    | none => simp [container_matches]
    | some b =>
      simp only [container_matches, decide_eq_true_eq]
      constructor
      · intro h; right; rw [h]
      · intro h
        rcases h with h | h
        · cases h
        · injection h with h; exact h.symm

theorem find_loop_cons (syscall : Int) (container : Option Nat) (pid : Int)
    (e : syscall_hook_entry) (es : List syscall_hook_entry) :
    find_loop syscall container pid (e :: es) =
      if claimed_scope syscall container pid e then some e
      else find_loop syscall container pid es := by
  have hc := container_matches_iff container e.target_container
  by_cases h1 : e.syscall_number = syscall
  · by_cases h2 : container_matches container e.target_container = true
    · by_cases h3 : e.target_pid = 0 ∨ e.target_pid = pid
      · have hs : claimed_scope syscall container pid e := ⟨h1, hc.mp h2, h3⟩
        simp only [find_loop, if_pos h1, if_pos h2, if_pos h3, if_pos hs]
      · have hs : ¬ claimed_scope syscall container pid e := fun h => h3 h.2.2
        simp only [find_loop, if_pos h1, if_pos h2, if_neg h3, if_neg hs]
    · have hs : ¬ claimed_scope syscall container pid e := fun h => h2 (hc.mpr h.2.1)
      simp only [find_loop, if_pos h1, if_neg h2, if_neg hs]
  · have hs : ¬ claimed_scope syscall container pid e := fun h => h1 h.1
    simp only [find_loop, if_neg h1, if_neg hs]

theorem find_loop_some (syscall : Int) (container : Option Nat) (pid : Int)
    (r : syscall_hook_entry) :
    ∀ l : List syscall_hook_entry, find_loop syscall container pid l = some r →
      ∃ pre post, l = pre ++ r :: post ∧ claimed_scope syscall container pid r ∧
        ∀ x ∈ pre, ¬ claimed_scope syscall container pid x := by
  intro l
  induction l with
  | nil => intro h; simp [find_loop] at h
  | cons e es ih =>
    intro h
    rw [find_loop_cons] at h
    by_cases hs : claimed_scope syscall container pid e
    · rw [if_pos hs] at h
      injection h with h
      subst h
      exact ⟨[], es, rfl, hs, by simp⟩
    · rw [if_neg hs] at h
      obtain ⟨pre, post, hl, hr, hpre⟩ := ih h
      refine ⟨e :: pre, post, by rw [hl]; rfl, hr, ?_⟩
      intro x hx
      rcases List.mem_cons.mp hx with hx | hx
      · rw [hx]; exact hs
      · exact hpre x hx

theorem find_loop_none (syscall : Int) (container : Option Nat) (pid : Int) :
    ∀ l : List syscall_hook_entry, find_loop syscall container pid l = none ↔
      ∀ x ∈ l, ¬ claimed_scope syscall container pid x := by
  intro l
  induction l with
  | nil => simp [find_loop]
  | cons e es ih =>
    rw [find_loop_cons]
    by_cases hs : claimed_scope syscall container pid e
    · rw [if_pos hs]
      constructor
      · intro h; cases h
      · intro h; exact absurd hs (h e (List.mem_cons_self e es))
    · rw [if_neg hs, ih]
      constructor
      · intro h x hx
        rcases List.mem_cons.mp hx with hx | hx
        · rw [hx]; exact hs
        · exact h x hx
      · intro h x hx
        exact h x (List.mem_cons_of_mem e hx)

theorem find_loop_append_of_none (syscall : Int) (container : Option Nat) (pid : Int)
    (l l2 : List syscall_hook_entry)
    (h : ∀ x ∈ l, ¬ claimed_scope syscall container pid x) :
    find_loop syscall container pid (l ++ l2) = find_loop syscall container pid l2 := by
  induction l with
  | nil => rfl
  | cons e es ih =>
    rw [List.cons_append, find_loop_cons, if_neg (h e (List.mem_cons_self e es))]
    exact ih (fun x hx => h x (List.mem_cons_of_mem e hx))

theorem find_match_enabled (m : Module) (h : m.deception_enabled = true) (syscall : Int)
    (arg : Option (List Char)) (container : Option Nat) (pid : Int) :
    deception_table_find_match m syscall arg container pid =
      find_loop syscall container pid m.rules := by
  unfold deception_table_find_match Module.rules
  cases m.table with
  | none => rfl
  | some t => simp [h]

/-! ## Claims -/

/-- C1: with the enabled flag on, `deception_table_find_match` returns the first
rule in list order that has the looked-up syscall, a target container that is
absent or equal to the lookup container, and a target pid that is 0 or the
caller pid; it returns no match exactly when no rule of the table satisfies the
three conditions; and of two wildcard rules for the looked-up syscall added in
the order R1, R2 to a table holding no rule in scope, it returns R1 (with the
id its add returned). -/
theorem find_match_first_in_scope (m : Module) (h : m.deception_enabled = true)
    (syscall : Int) (arg : Option (List Char)) (container : Option Nat) (pid : Int) :
    (∀ r, deception_table_find_match m syscall arg container pid = some r →
      ∃ pre post, m.rules = pre ++ r :: post ∧ claimed_scope syscall container pid r ∧
        ∀ x ∈ pre, ¬ claimed_scope syscall container pid x) ∧
    (deception_table_find_match m syscall arg container pid = none ↔
      ∀ x ∈ m.rules, ¬ claimed_scope syscall container pid x) ∧
    (∀ t R1 R2, m.table = some t →
      (∀ x ∈ m.rules, ¬ claimed_scope syscall container pid x) →
      R1.syscall_number = syscall → R1.target_container = none → R1.target_pid = 0 →
      R2.syscall_number = syscall → R2.target_container = none → R2.target_pid = 0 →
      deception_table_find_match
          (deception_table_add_rule (deception_table_add_rule m (some R1)).1 (some R2)).1
          syscall arg container pid
        = some { R1 with rule_id := (deception_table_add_rule m (some R1)).2 }) := by
  refine ⟨?_, ?_, ?_⟩
  · intro r hr
    rw [find_match_enabled m h] at hr
    exact find_loop_some syscall container pid r m.rules hr
  · rw [find_match_enabled m h]
    exact find_loop_none syscall container pid m.rules
  · intro t R1 R2 ht hnone h1 h2 h3 _ _ _
    have hrules : m.rules = t.entries := by simp [Module.rules, ht]
    rw [hrules] at hnone
    have hen : (deception_table_add_rule
        (deception_table_add_rule m (some R1)).1 (some R2)).1.deception_enabled = true := by
      simp [deception_table_add_rule, ht, h]
    rw [find_match_enabled _ hen]
    simp only [deception_table_add_rule, ht, Module.rules, List.append_assoc]
    rw [find_loop_append_of_none syscall container pid t.entries _ hnone]
    have hs : claimed_scope syscall container pid
        { R1 with rule_id := wrap32 (t.next_rule_id + 1) } :=
      ⟨h1, Or.inl h2, Or.inl h3⟩
    rw [List.singleton_append, find_loop_cons, if_pos hs]

/-- Witness for C1: on a freshly initialised table two wildcard rules for syscall 2
are added; a lookup of syscall 2 returns the first. -/
theorem find_match_first_in_scope_witness :
    deception_table_find_match
        (deception_table_add_rule
          (deception_table_add_rule (fresh Module.boot) (some (wildcard_rule 2 none))).1
          (some (wildcard_rule 2 (some ['x'])))).1
        2 none none 7
      = some { wildcard_rule 2 none with
          rule_id := (deception_table_add_rule (fresh Module.boot)
            (some (wildcard_rule 2 none))).2 } :=
  (find_match_first_in_scope (fresh Module.boot) rfl 2 none none 7).2.2
    { entries := [], refcount := 1, next_rule_id := 1 }
    (wildcard_rule 2 none) (wildcard_rule 2 (some ['x'])) rfl
    (by intro x hx; cases hx) rfl rfl rfl rfl rfl rfl

/-! ## Lemmas on the id counter and on operation sequences -/

theorem wrap32_succ (x : Int) : wrap32 (wrap32 x + 1) = wrap32 (x + 1) := by
  unfold wrap32; omega

theorem wrap32_small (x : Int) (h1 : -2147483648 ≤ x) (h2 : x < 2147483648) : wrap32 x = x := by
  unfold wrap32; omega

theorem wrap32_inj_of_lt (i j : Nat) (hi : i < 4294967296) (hj : j < 4294967296)
    (h : wrap32 (Int.ofNat i + 2) = wrap32 (Int.ofNat j + 2)) : i = j := by
  unfold wrap32 at h
  simp only [Int.ofNat_eq_coe] at h
  omega

theorem issued_ids_succ (n : Nat) :
    issued_ids (n + 1) = issued_ids n ++ [wrap32 (Int.ofNat n + 2)] := by
  simp [issued_ids, List.range_succ]

theorem issued_ids_nodup (n : Nat) (h : n ≤ 4294967296) : (issued_ids n).Nodup := by
  unfold issued_ids
  rw [List.nodup_map_iff_inj_on (List.nodup_range n)]
  intro x hx y hy hxy
  rw [List.mem_range] at hx hy
  exact wrap32_inj_of_lt x y (by omega) (by omega) hxy

theorem mem_issued_ids (n : Nat) (x : Int) :
    x ∈ issued_ids n ↔ ∃ j, j < n ∧ wrap32 (Int.ofNat j + 2) = x := by
  simp [issued_ids]

theorem remove_loop_sublist (rule_id : Int) :
    ∀ l l2 : List syscall_hook_entry, remove_loop rule_id l = some l2 → List.Sublist l2 l := by
  intro l
  induction l with
  | nil => intro l2 h; simp [remove_loop] at h
  | cons e es ih =>
    intro l2 h
    simp only [remove_loop] at h
    by_cases he : e.rule_id = rule_id
    · rw [if_pos he] at h
      injection h with h
      subst h
      exact List.sublist_cons_self e es
    · rw [if_neg he] at h
      cases hr : remove_loop rule_id es with
      | none => rw [hr] at h; cases h
      | some es2 =>
        rw [hr] at h
        injection h with h
        subst h
        exact List.Sublist.cons₂ e (ih es2 hr)

theorem remove_loop_none_iff (rule_id : Int) :
    ∀ l : List syscall_hook_entry,
      remove_loop rule_id l = none ↔ ∀ x ∈ l, x.rule_id ≠ rule_id := by
  intro l
  induction l with
  | nil => simp [remove_loop]
  | cons e es ih =>
    simp only [remove_loop]
    by_cases he : e.rule_id = rule_id
    · rw [if_pos he]
      constructor
      · intro h; cases h
      · intro h; exact absurd he (h e (List.mem_cons_self e es))
    · rw [if_neg he]
      cases hr : remove_loop rule_id es with
      | none =>
        constructor
        · intro _ x hx
          rcases List.mem_cons.mp hx with hx | hx
          · rw [hx]; exact he
          · exact (ih.mp hr) x hx
        · intro _; rfl
      | some es2 =>
        constructor
        · intro h; cases h
        · intro h
          have hn := ih.mpr (fun x hx => h x (List.mem_cons_of_mem e hx))
          rw [hr] at hn
          cases hn

theorem remove_loop_nodup (rule_id : Int) :
    ∀ l l2 : List syscall_hook_entry, remove_loop rule_id l = some l2 →
      (l.map (fun e => e.rule_id)).Nodup → ∀ x ∈ l2, x.rule_id ≠ rule_id := by
  intro l
  induction l with
  | nil => intro l2 h; simp [remove_loop] at h
  | cons e es ih =>
    intro l2 h hnd x hx
    rw [List.map_cons, List.nodup_cons] at hnd
    simp only [remove_loop] at h
    by_cases he : e.rule_id = rule_id
    · rw [if_pos he] at h
      injection h with h
      subst h
      intro hxid
      apply hnd.1
      rw [he, ← hxid]
      exact List.mem_map_of_mem (fun e => e.rule_id) hx
    · rw [if_neg he] at h
      cases hr : remove_loop rule_id es with
      | none => rw [hr] at h; cases h
      | some es2 =>
        rw [hr] at h
        injection h with h
        subst h
        rcases List.mem_cons.mp hx with hx | hx
        · rw [hx]; exact he
        · exact ih es2 hr hnd.2 x hx

theorem clear_loop_nil (l : List syscall_hook_entry) : clear_loop l = [] := by
  induction l with
  | nil => rfl
  | cons e es ih => simpa [clear_loop] using ih

theorem tableInv_fresh (m : Module) : TableInv 0 (fresh m) := by
  refine ⟨{ entries := [], refcount := 1, next_rule_id := 1 }, rfl, ?_, ?_⟩
  · decide
  · simp [live_ids, Module.rules, fresh, deception_init, issued_ids]

theorem tableInv_step (k : Nat) (m : Module) (op : Op) (h : TableInv k m) :
    TableInv (k + counts_as_add op) (step m op) ∧
      issued_ids k ++ (added_id m op).toList = issued_ids (k + counts_as_add op) := by
  obtain ⟨t, ht, hc, hsub⟩ := h
  have hlive : live_ids m = t.entries.map (fun e => e.rule_id) := by
    simp [live_ids, Module.rules, ht]
  cases op with
  | add entry =>
    cases entry with
    | none =>
      refine ⟨⟨t, ?_, hc, ?_⟩, ?_⟩
      · simp [step, deception_table_add_rule, ht]
      · simpa [step, deception_table_add_rule, ht, counts_as_add] using hsub
      · simp [added_id, counts_as_add]
    | some e =>
      have hid : wrap32 (t.next_rule_id + 1) = wrap32 (Int.ofNat k + 2) := by
        rw [hc, wrap32_succ]; congr 1; omega
      refine ⟨⟨{ entries := t.entries ++ [{ e with rule_id := wrap32 (t.next_rule_id + 1) }],
                 refcount := t.refcount, next_rule_id := wrap32 (t.next_rule_id + 1) },
               ?_, ?_, ?_⟩, ?_⟩
      · simp only [step, deception_table_add_rule, ht]
      · simp only [counts_as_add]
        rw [hid]; congr 1; simp only [Int.ofNat_eq_coe]; omega
      · simp only [live_ids, Module.rules, step, deception_table_add_rule, ht, counts_as_add,
          List.map_append, List.map_cons, List.map_nil]
        rw [issued_ids_succ, hid]
        rw [hlive] at hsub
        exact List.Sublist.append hsub (List.Sublist.refl _)
      · simp only [added_id, ht, deception_table_add_rule, counts_as_add, Option.toList]
        rw [issued_ids_succ, hid]
  | remove rule_id =>
    cases hr : remove_loop rule_id t.entries with
    | none =>
      refine ⟨⟨t, ?_, hc, ?_⟩, ?_⟩
      · simp [step, deception_table_remove_rule, ht, hr]
      · simpa [step, deception_table_remove_rule, ht, hr, counts_as_add] using hsub
      · simp [added_id, counts_as_add]
    | some es =>
      refine ⟨⟨{ t with entries := es }, ?_, hc, ?_⟩, ?_⟩
      · simp [step, deception_table_remove_rule, ht, hr]
      · simp only [live_ids, Module.rules, step, deception_table_remove_rule, ht, hr,
          counts_as_add, Nat.add_zero]
        rw [hlive] at hsub
        exact List.Sublist.trans
          (List.Sublist.map _ (remove_loop_sublist rule_id t.entries es hr)) hsub
      · simp [added_id, counts_as_add]
  | clear =>
    refine ⟨⟨{ t with entries := clear_loop t.entries }, ?_, hc, ?_⟩, ?_⟩
    · simp [step, deception_table_clear, ht]
    · simp [live_ids, Module.rules, step, deception_table_clear, ht, clear_loop_nil]
    · simp [added_id, counts_as_add]

theorem tableInv_run :
    ∀ (ops : List Op) (k : Nat) (m : Module), TableInv k m →
      TableInv (k + add_count ops) (run m ops) ∧
        issued_ids k ++ returned_ids m ops = issued_ids (k + add_count ops) := by
  intro ops
  induction ops with
  | nil => intro k m h; simpa [run, returned_ids, add_count] using h
  | cons op ops ih =>
    intro k m h
    obtain ⟨h1, h2⟩ := tableInv_step k m op h
    obtain ⟨h3, h4⟩ := ih (k + counts_as_add op) (step m op) h1
    have hk : k + add_count (op :: ops) = k + counts_as_add op + add_count ops := by
      simp only [add_count]; omega
    rw [hk]
    refine ⟨h3, ?_⟩
    simp only [returned_ids]
    rw [← List.append_assoc, h2, h4]

theorem returned_ids_fresh (m : Module) (ops : List Op) :
    returned_ids (fresh m) ops = issued_ids (add_count ops) := by
  have h := (tableInv_run ops 0 (fresh m) (tableInv_fresh m)).2
  simpa [issued_ids] using h

theorem tableInv_live_nodup (k : Nat) (m : Module) (h : TableInv k m) (hk : k ≤ 4294967296) :
    (live_ids m).Nodup := by
  obtain ⟨t, _, _, hsub⟩ := h
  exact List.Nodup.sublist hsub (issued_ids_nodup k hk)

theorem add_count_append (a b : List Op) : add_count (a ++ b) = add_count a + add_count b := by
  induction a with
  | nil => simp [add_count]
  | cons op ops ih =>
    rw [List.cons_append]
    simp only [add_count]
    rw [ih]; omega

theorem add_count_take_le (ops : List Op) (n : Nat) : add_count (ops.take n) ≤ add_count ops := by
  have h := add_count_append (ops.take n) (ops.drop n)
  rw [List.take_append_drop] at h
  omega

theorem run_cons (m : Module) (op : Op) (ops : List Op) :
    run m (op :: ops) = run (step m op) ops := rfl

theorem run_append (a b : List Op) : ∀ m : Module, run m (a ++ b) = run (run m a) b := by
  induction a with
  | nil => intro m; rfl
  | cons op ops ih =>
    intro m
    rw [List.cons_append]
    simp only [run]
    exact ih (step m op)

theorem returned_ids_append (a b : List Op) :
    ∀ m : Module, returned_ids m (a ++ b) = returned_ids m a ++ returned_ids (run m a) b := by
  induction a with
  | nil => intro m; rfl
  | cons op ops ih =>
    intro m
    rw [List.cons_append]
    simp only [returned_ids, run]
    rw [ih (step m op), List.append_assoc]

theorem add_count_add_clear_cycles (e : syscall_hook_entry) (n : Nat) :
    add_count (add_clear_cycles e n) = n := by
  induction n with
  | zero => rfl
  | succ n ih => simp only [add_clear_cycles, add_count, counts_as_add, ih]; omega

theorem find_match_mem (m : Module) (syscall : Int) (arg : Option (List Char))
    (container : Option Nat) (pid : Int) (r : syscall_hook_entry)
    (h : deception_table_find_match m syscall arg container pid = some r) :
    r ∈ m.rules ∧ claimed_scope syscall container pid r := by
  unfold deception_table_find_match at h
  cases ht : m.table with
  | none => rw [ht] at h; cases h
  | some t =>
    rw [ht] at h
    simp only at h
    by_cases hen : m.deception_enabled = false
    · rw [if_pos hen] at h; cases h
    · rw [if_neg hen] at h
      obtain ⟨pre, post, hl, hs, _⟩ := find_loop_some syscall container pid r t.entries h
      refine ⟨?_, hs⟩
      simp only [Module.rules, ht, hl]
      simp

theorem find_match_no_rules (m : Module) (h : m.rules = []) (syscall : Int)
    (arg : Option (List Char)) (container : Option Nat) (pid : Int) :
    deception_table_find_match m syscall arg container pid = none := by
  cases hr : deception_table_find_match m syscall arg container pid with
  | none => rfl
  | some r =>
    have hm := (find_match_mem m syscall arg container pid r hr).1
    rw [h] at hm
    cases hm

/-- C2 (amended): starting from a freshly initialised table, for every sequence of
add, remove and clear operations with at most 2^32 successful adds, the ids
returned by the adds are pairwise distinct, and after every prefix of the
sequence the rules live in the table have pairwise distinct ids. -/
theorem rule_ids_unique_below_wrap (m0 : Module) (ops : List Op)
    (h : add_count ops ≤ 4294967296) :
    (returned_ids (fresh m0) ops).Nodup ∧
      ∀ n : Nat, (live_ids (run (fresh m0) (ops.take n))).Nodup := by
  constructor
  · rw [returned_ids_fresh]
    exact issued_ids_nodup _ h
  · intro n
    have hinv := (tableInv_run (ops.take n) 0 (fresh m0) (tableInv_fresh m0)).1
    have hle := add_count_take_le ops n
    exact tableInv_live_nodup _ _ hinv (by omega)

/-- Witness for C2 (amended): three adds interleaved with a remove and a clear. -/
theorem rule_ids_unique_below_wrap_witness :
    add_count [Op.add (some (wildcard_rule 1 none)), Op.remove 2,
        Op.add (some (wildcard_rule 1 none)), Op.clear,
        Op.add (some (wildcard_rule 1 none))] ≤ 4294967296 ∧
    ((returned_ids (fresh Module.boot)
        [Op.add (some (wildcard_rule 1 none)), Op.remove 2,
          Op.add (some (wildcard_rule 1 none)), Op.clear,
          Op.add (some (wildcard_rule 1 none))]).Nodup ∧
      ∀ n : Nat, (live_ids (run (fresh Module.boot)
        ([Op.add (some (wildcard_rule 1 none)), Op.remove 2,
          Op.add (some (wildcard_rule 1 none)), Op.clear,
          Op.add (some (wildcard_rule 1 none))].take n))).Nodup) :=
  ⟨by decide, rule_ids_unique_below_wrap Module.boot _ (by decide)⟩

/-- C2 (counterexample): after 2^32 rounds of add and clear on a freshly initialised
table the 32-bit counter is back at its initial value, so one more add returns
the id of the very first add again: the returned ids are not pairwise distinct. -/
theorem rule_id_reused_after_wrap :
    ¬ (returned_ids (fresh Module.boot)
        (add_clear_cycles (wildcard_rule 1 none) 4294967296 ++
          [Op.add (some (wildcard_rule 1 none))])).Nodup := by
  rw [returned_ids_fresh, add_count_append, add_count_add_clear_cycles]
  have h1 : add_count [Op.add (some (wildcard_rule 1 none))] = 1 := rfl
  rw [h1]
  intro hnd
  unfold issued_ids at hnd
  rw [List.nodup_map_iff_inj_on (List.nodup_range _)] at hnd
  have h := hnd 0 (List.mem_range.mpr (by decide)) 4294967296
    (List.mem_range.mpr (by decide)) (by decide)
  exact absurd h (by decide)

/-- C3 (code behaviour): on a freshly initialised table the first
`deception_table_add_rule` returns rule id 2 and the second returns rule id 3,
because the counter is initialised to 1 and incremented before it is read. -/
theorem first_rule_ids_are_two_and_three (m : Module) (e1 e2 : syscall_hook_entry) :
    (deception_table_add_rule (fresh m) (some e1)).2 = 2 ∧
    (deception_table_add_rule (deception_table_add_rule (fresh m) (some e1)).1 (some e2)).2
      = 3 := by
  constructor
  · simp only [fresh, deception_init, deception_table_add_rule, if_true]
    decide
  · simp only [fresh, deception_init, deception_table_add_rule, if_true]
    decide

/-- C4: with the enabled flag off `deception_table_find_match` returns no match for
every table state and every lookup input, and switching the flag leaves the table
as it was; switching the flag on again gives back the module state from before,
so every lookup returns exactly what it returned before the flag was turned off. -/
theorem disable_switch (m : Module) (h : m.deception_enabled = true)
    (syscall : Int) (arg : Option (List Char)) (container : Option Nat) (pid : Int) :
    deception_table_find_match (set_enabled m false) syscall arg container pid = none ∧
    (set_enabled m false).table = m.table ∧
    (set_enabled m false).rules = m.rules ∧
    set_enabled (set_enabled m false) true = m ∧
    deception_table_find_match (set_enabled (set_enabled m false) true)
        syscall arg container pid
      = deception_table_find_match m syscall arg container pid := by
  have hback : set_enabled (set_enabled m false) true = m := by
    cases m with
    | mk table en =>
      simp only at h
      simp [set_enabled, h]
  refine ⟨?_, rfl, rfl, hback, by rw [hback]⟩
  unfold deception_table_find_match set_enabled
  cases m.table with
  | none => rfl
  | some t => simp

/-- Witness for C4: a table holding one wildcard rule for syscall 1. -/
theorem disable_switch_witness :
    deception_table_find_match
        (set_enabled (deception_table_add_rule (fresh Module.boot)
          (some (wildcard_rule 1 none))).1 false) 1 none none 7 = none ∧
    deception_table_find_match
        (set_enabled (set_enabled (deception_table_add_rule (fresh Module.boot)
          (some (wildcard_rule 1 none))).1 false) true) 1 none none 7
      = deception_table_find_match (deception_table_add_rule (fresh Module.boot)
          (some (wildcard_rule 1 none))).1 1 none none 7 :=
  ⟨(disable_switch _ rfl 1 none none 7).1, (disable_switch _ rfl 1 none none 7).2.2.2.2⟩

theorem next_id_after_run (m0 : Module) (ops : List Op) (e : syscall_hook_entry) :
    (deception_table_add_rule (deception_table_clear (run (fresh m0) ops)).1 (some e)).2
      = wrap32 (Int.ofNat (add_count ops) + 2) := by
  obtain ⟨t, ht, hc, _⟩ := (tableInv_run ops 0 (fresh m0) (tableInv_fresh m0)).1
  rw [Nat.zero_add] at hc
  simp only [deception_table_clear, ht, deception_table_add_rule, hc]
  rw [wrap32_succ]
  congr 1
  omega

/-- C5 (amended): for every initialised table, `deception_table_clear` returns 0,
leaves the table empty (so every lookup then returns no match) and leaves the id
counter as it was; on an empty table it changes nothing. After a sequence of
operations on a fresh table with at most 2^31 - 3 successful adds, the add that
follows a clear returns an id strictly greater than every id returned before. -/
theorem clear_exhaustive (m : Module) (t : deception_table) (ht : m.table = some t) :
    (deception_table_clear m).2 = 0 ∧
    (deception_table_clear m).1.rules = [] ∧
    (∀ syscall arg container pid,
      deception_table_find_match (deception_table_clear m).1 syscall arg container pid
        = none) ∧
    (deception_table_clear m).1.table = some { t with entries := [] } ∧
    (t.entries = [] → deception_table_clear m = (m, 0)) ∧
    (∀ (m0 : Module) (ops : List Op) (e : syscall_hook_entry),
      add_count ops ≤ 2147483645 →
      ∀ id ∈ returned_ids (fresh m0) ops,
        id < (deception_table_add_rule
                (deception_table_clear (run (fresh m0) ops)).1 (some e)).2) := by
  have hrules : (deception_table_clear m).1.rules = [] := by
    simp [deception_table_clear, ht, Module.rules, clear_loop_nil]
  refine ⟨?_, hrules, ?_, ?_, ?_, ?_⟩
  · simp [deception_table_clear, ht]
  · intro syscall arg container pid
    exact find_match_no_rules _ hrules syscall arg container pid
  · simp [deception_table_clear, ht, clear_loop_nil]
  · intro hnil
    cases m with
    | mk table en =>
      simp only at ht
      subst ht
      cases t with
      | mk entries refcount next =>
        simp only at hnil
        subst hnil
        rfl
  · intro m0 ops e hle id hid
    rw [next_id_after_run]
    rw [returned_ids_fresh, mem_issued_ids] at hid
    obtain ⟨j, hj, hjid⟩ := hid
    rw [← hjid]
    unfold wrap32
    simp only [Int.ofNat_eq_coe]
    omega

/-- Witness for C5 (amended): a table with two rules is cleared. -/
theorem clear_exhaustive_witness :
    (deception_table_clear (run (fresh Module.boot)
        [Op.add (some (wildcard_rule 1 none)), Op.add (some (wildcard_rule 2 none))])).1.rules
      = [] ∧
    (∀ id ∈ returned_ids (fresh Module.boot)
        [Op.add (some (wildcard_rule 1 none)), Op.add (some (wildcard_rule 2 none))],
      id < (deception_table_add_rule
              (deception_table_clear (run (fresh Module.boot)
                [Op.add (some (wildcard_rule 1 none)),
                  Op.add (some (wildcard_rule 2 none))])).1
              (some (wildcard_rule 3 none))).2) :=
  ⟨(clear_exhaustive (run (fresh Module.boot)
      [Op.add (some (wildcard_rule 1 none)), Op.add (some (wildcard_rule 2 none))])
      _ rfl).2.1,
   (clear_exhaustive (fresh Module.boot) _ rfl).2.2.2.2.2 Module.boot
      [Op.add (some (wildcard_rule 1 none)), Op.add (some (wildcard_rule 2 none))]
      (wildcard_rule 3 none) (by decide)⟩

/-- C5 (counterexample): after 2^31 - 2 rounds of add and clear on a fresh table
the id 2 has been returned and the counter holds 2^31 - 1; the add that follows
one more clear returns -2^31, which is not greater than 2. -/
theorem next_id_after_clear_wraps_negative :
    (2 : Int) ∈ returned_ids (fresh Module.boot)
        (add_clear_cycles (wildcard_rule 1 none) 2147483646) ∧
    (deception_table_add_rule
        (deception_table_clear (run (fresh Module.boot)
          (add_clear_cycles (wildcard_rule 1 none) 2147483646))).1
        (some (wildcard_rule 1 none))).2 = -2147483648 := by
  constructor
  · rw [returned_ids_fresh, add_count_add_clear_cycles, mem_issued_ids]
    exact ⟨0, by decide, by decide⟩
  · rw [next_id_after_run, add_count_add_clear_cycles]
    decide

theorem wrap32_add_wrap (a b : Int) : wrap32 (wrap32 a + b) = wrap32 (a + b) := by
  unfold wrap32; omega

theorem remove_loop_some_mem (rule_id : Int) (l l2 : List syscall_hook_entry)
    (h : remove_loop rule_id l = some l2) : rule_id ∈ l.map (fun e => e.rule_id) := by
  by_contra hmem
  have hnone : remove_loop rule_id l = none := by
    rw [remove_loop_none_iff]
    intro x hx hxid
    apply hmem
    rw [← hxid]
    exact List.mem_map_of_mem (fun e => e.rule_id) hx
  rw [hnone] at h
  cases h

theorem live_ids_step_subset (m : Module) (op : Op) (x : Int)
    (h : x ∈ live_ids (step m op)) : x ∈ live_ids m ∨ x ∈ (added_id m op).toList := by
  cases ht : m.table with
  | none =>
    left
    cases op with
    | add entry => cases entry <;> simpa [step, deception_table_add_rule, ht] using h
    | remove rule_id => simpa [step, deception_table_remove_rule, ht] using h
    | clear => simpa [step, deception_table_clear, ht] using h
  | some t =>
    have hlive : live_ids m = t.entries.map (fun e => e.rule_id) := by
      simp [live_ids, Module.rules, ht]
    cases op with
    | add entry =>
      cases entry with
      | none => left; simpa [step, deception_table_add_rule, ht] using h
      | some e =>
        simp only [live_ids, Module.rules, step, deception_table_add_rule, ht,
          List.map_append, List.map_cons, List.map_nil, List.mem_append,
          List.mem_singleton] at h
        rcases h with h | h
        · left; rw [hlive]; exact h
        · right; simp [added_id, ht, deception_table_add_rule, h]
    | remove rule_id =>
      left
      cases hr : remove_loop rule_id t.entries with
      | none => simpa [step, deception_table_remove_rule, ht, hr] using h
      | some es =>
        simp only [live_ids, Module.rules, step, deception_table_remove_rule, ht, hr] at h
        rw [hlive]
        exact List.Sublist.subset
          (List.Sublist.map _ (remove_loop_sublist rule_id t.entries es hr)) h
    | clear =>
      simp [live_ids, Module.rules, step, deception_table_clear, ht, clear_loop_nil] at h

theorem live_ids_run_subset :
    ∀ (ops : List Op) (m : Module) (x : Int), x ∈ live_ids (run m ops) →
      x ∈ live_ids m ∨ x ∈ returned_ids m ops := by
  intro ops
  induction ops with
  | nil => intro m x h; left; exact h
  | cons op ops ih =>
    intro m x h
    simp only [run] at h
    simp only [returned_ids, List.mem_append]
    rcases ih (step m op) x h with h1 | h1
    · rcases live_ids_step_subset m op x h1 with h2 | h2
      · left; exact h2
      · right; left; exact h2
    · right; right; exact h1

theorem run_add_remove_cycles (e x : syscall_hook_entry) (r : Int) (b : Bool) :
    ∀ (n : Nat) (c : Int), wrap32 c = c →
      (∀ j : Nat, 1 ≤ j → j ≤ n → wrap32 (c + Int.ofNat j) ≠ x.rule_id) →
      run { table := some { entries := [x], refcount := r, next_rule_id := c },
            deception_enabled := b } (add_remove_cycles e n c)
        = { table := some { entries := [x], refcount := r,
                            next_rule_id := wrap32 (c + Int.ofNat n) },
            deception_enabled := b } := by
  intro n
  induction n with
  | zero =>
    intro c hc _
    simp only [add_remove_cycles, run, Int.ofNat_eq_coe, Nat.cast_zero, add_zero, hc]
  | succ n ih =>
    intro c hc hx
    have h1 : x.rule_id ≠ wrap32 (c + 1) := by
      have := hx 1 (le_refl 1) (by omega)
      simpa using this.symm
    have hstep : step (step (⟨some ⟨[x], r, c⟩, b⟩ : Module) (Op.add (some e)))
          (Op.remove (wrap32 (c + 1)))
        = (⟨some ⟨[x], r, wrap32 (c + 1)⟩, b⟩ : Module) := by
      simp [step, deception_table_add_rule, deception_table_remove_rule, remove_loop, h1]
    simp only [add_remove_cycles, run]
    rw [hstep, ih (wrap32 (c + 1)) (by unfold wrap32; omega)]
    · rw [wrap32_add_wrap]
      congr 4
      simp only [Int.ofNat_eq_coe, Nat.cast_add, Nat.cast_one]
      omega
    · intro j hj1 hj2
      rw [wrap32_add_wrap]
      have := hx (j + 1) (by omega) (by omega)
      simp only [Int.ofNat_eq_coe, Nat.cast_add, Nat.cast_one] at this
      simp only [Int.ofNat_eq_coe]
      rw [show c + 1 + (j : Int) = c + ((j : Int) + 1) by omega]
      exact this

theorem rules_set_enabled (m : Module) (b : Bool) : (set_enabled m b).rules = m.rules := rfl

/-- C6 (amended): in every table state reached from initialisation by add, remove
and clear operations, if `deception_table_remove_rule id` succeeds then an
immediately following `deception_table_remove_rule id` returns -ENOENT and
changes nothing, and after any later operations no lookup, whatever the enabled
flag, returns a rule whose id is `id`, provided that at most 2^32 successful
adds are made overall. -/
theorem remove_twice_not_found (m0 : Module) (ops later : List Op) (id : Int)
    (hadds : add_count ops + add_count later ≤ 4294967296)
    (hok : (deception_table_remove_rule (run (fresh m0) ops) id).2 = 0) :
    deception_table_remove_rule (deception_table_remove_rule (run (fresh m0) ops) id).1 id
      = ((deception_table_remove_rule (run (fresh m0) ops) id).1, -ENOENT) ∧
    (∀ b syscall arg container pid r,
      deception_table_find_match
          (set_enabled (run (deception_table_remove_rule (run (fresh m0) ops) id).1 later) b)
          syscall arg container pid = some r →
        r.rule_id ≠ id) := by
  have hinv := (tableInv_run ops 0 (fresh m0) (tableInv_fresh m0)).1
  rw [Nat.zero_add] at hinv
  have hnd := tableInv_live_nodup _ _ hinv (by omega)
  have hinv1 := (tableInv_step _ _ (Op.remove id) hinv).1
  simp only [counts_as_add, Nat.add_zero, step] at hinv1
  obtain ⟨t, ht, _, hsub⟩ := hinv
  have hlive : live_ids (run (fresh m0) ops) = t.entries.map (fun e => e.rule_id) := by
    simp [live_ids, Module.rules, ht]
  rw [hlive] at hnd hsub
  cases hr : remove_loop id t.entries with
  | none =>
    simp [deception_table_remove_rule, ht, hr, ENOENT] at hok
  | some es =>
    have hgone : ∀ x ∈ es, x.rule_id ≠ id := remove_loop_nodup id t.entries es hr hnd
    have hissued : id ∈ issued_ids (add_count ops) :=
      List.Sublist.subset hsub (remove_loop_some_mem id t.entries es hr)
    have hm1 : (deception_table_remove_rule (run (fresh m0) ops) id).1
        = { run (fresh m0) ops with table := some { t with entries := es } } := by
      simp [deception_table_remove_rule, ht, hr]
    constructor
    · rw [hm1]
      simp [deception_table_remove_rule, (remove_loop_none_iff id es).mpr hgone]
    · intro b syscall arg container pid r hfind hrid
      have hmem := (find_match_mem _ syscall arg container pid r hfind).1
      rw [rules_set_enabled] at hmem
      have hidlive : id ∈ live_ids
          (run (deception_table_remove_rule (run (fresh m0) ops) id).1 later) := by
        have hr2 : r.rule_id ∈ List.map (fun e => e.rule_id)
            (run (deception_table_remove_rule (run (fresh m0) ops) id).1 later).rules :=
          List.mem_map_of_mem (fun e => e.rule_id) hmem
        rw [hrid] at hr2
        exact hr2
      rcases live_ids_run_subset later _ id hidlive with h1 | h1
      · rw [hm1] at h1
        simp only [live_ids, Module.rules, List.mem_map] at h1
        obtain ⟨x, hx, hxid⟩ := h1
        exact hgone x hx hxid
      · have hrun := (tableInv_run later _ _ hinv1).2
        have hnd2 := issued_ids_nodup (add_count ops + add_count later) hadds
        rw [← hrun] at hnd2
        exact (List.disjoint_of_nodup_append hnd2) hissued h1

/-- Witness for C6 (amended): two rules are added, the first (id 2) is removed,
then a third rule is added. -/
theorem remove_twice_not_found_witness :
    (deception_table_remove_rule (run (fresh Module.boot)
        [Op.add (some (wildcard_rule 1 none)), Op.add (some (wildcard_rule 1 none))]) 2).2 = 0 ∧
    (deception_table_remove_rule (deception_table_remove_rule (run (fresh Module.boot)
        [Op.add (some (wildcard_rule 1 none)), Op.add (some (wildcard_rule 1 none))]) 2).1 2).2
      = -ENOENT ∧
    (∀ r, deception_table_find_match
          (set_enabled (run (deception_table_remove_rule (run (fresh Module.boot)
            [Op.add (some (wildcard_rule 1 none)), Op.add (some (wildcard_rule 1 none))]) 2).1
            [Op.add (some (wildcard_rule 1 none))]) true)
          1 none none 7 = some r →
        r.rule_id ≠ 2) :=
  ⟨by decide,
   congrArg Prod.snd (remove_twice_not_found Module.boot
      [Op.add (some (wildcard_rule 1 none)), Op.add (some (wildcard_rule 1 none))]
      [Op.add (some (wildcard_rule 1 none))] 2 (by decide) (by decide)).1,
   fun r => (remove_twice_not_found Module.boot
      [Op.add (some (wildcard_rule 1 none)), Op.add (some (wildcard_rule 1 none))]
      [Op.add (some (wildcard_rule 1 none))] 2 (by decide) (by decide)).2
        true 1 none none 7 r⟩

/-- C6 (counterexample): a rule is added to a fresh table (id 2), then 2^32 - 1
rounds of "add a rule and remove it again" bring the 32-bit counter back to 1, and
one more add links a second rule with id 2. Removing id 2 succeeds, and the
immediately following removal of id 2 succeeds again instead of returning -ENOENT. -/
theorem remove_twice_succeeds_after_wrap :
    (deception_table_remove_rule (run (fresh Module.boot)
        (Op.add (some (wildcard_rule 1 none)) ::
          (add_remove_cycles (wildcard_rule 1 none) 4294967295 2 ++
            [Op.add (some (wildcard_rule 1 none))]))) 2).2 = 0 ∧
    (deception_table_remove_rule (deception_table_remove_rule (run (fresh Module.boot)
        (Op.add (some (wildcard_rule 1 none)) ::
          (add_remove_cycles (wildcard_rule 1 none) 4294967295 2 ++
            [Op.add (some (wildcard_rule 1 none))]))) 2).1 2).2 = 0 := by
  have h0 : step (fresh Module.boot) (Op.add (some (wildcard_rule 1 none)))
      = (⟨some ⟨[{ wildcard_rule 1 none with rule_id := 2 }], 1, 2⟩, true⟩ : Module) := by
    decide
  have hcyc := run_add_remove_cycles (wildcard_rule 1 none)
    { wildcard_rule 1 none with rule_id := 2 } 1 true 4294967295 2 (by decide)
    (by
      intro j hj1 hj2
      show wrap32 (2 + Int.ofNat j) ≠ 2
      unfold wrap32
      simp only [Int.ofNat_eq_coe]
      omega)
  have hrun : run (fresh Module.boot)
      (Op.add (some (wildcard_rule 1 none)) ::
        (add_remove_cycles (wildcard_rule 1 none) 4294967295 2 ++
          [Op.add (some (wildcard_rule 1 none))]))
      = (⟨some ⟨[{ wildcard_rule 1 none with rule_id := 2 },
                 { wildcard_rule 1 none with rule_id := 2 }], 1, 2⟩, true⟩ : Module) := by
    rw [run_cons, run_append, h0, hcyc]
    decide
  rw [hrun]
  decide

/-- C7: any rule returned by `deception_table_find_match` has target pid 0 or the
caller pid, so a lookup by a caller whose pid is not 42 never returns a rule with
target pid 42; `container_matches` is true for an absent target container whatever
the lookup container, and on a table whose rules all have an absent target
container the lookup result does not depend on the lookup container. -/
theorem scope_correct (m : Module) (syscall : Int) (arg : Option (List Char))
    (container : Option Nat) (pid : Int) :
    (∀ r, deception_table_find_match m syscall arg container pid = some r →
      r.target_pid = 0 ∨ r.target_pid = pid) ∧
    (pid ≠ 42 → ∀ r, deception_table_find_match m syscall arg container pid = some r →
      r.target_pid ≠ 42) ∧
    container_matches container none = true ∧
    ((∀ x ∈ m.rules, x.target_container = none) →
      ∀ other, deception_table_find_match m syscall arg other pid
        = deception_table_find_match m syscall arg container pid) := by
  refine ⟨?_, ?_, rfl, ?_⟩
  · intro r hr
    exact (find_match_mem m syscall arg container pid r hr).2.2.2
  · intro hpid r hr h42
    rcases (find_match_mem m syscall arg container pid r hr).2.2.2 with h | h
    · rw [h42] at h; exact absurd h (by decide)
    · rw [h42] at h; exact hpid h.symm
  · intro hall other
    have hloop : ∀ l : List syscall_hook_entry, (∀ x ∈ l, x.target_container = none) →
        find_loop syscall other pid l = find_loop syscall container pid l := by
      intro l
      induction l with
      | nil => intro _; rfl
      | cons e es ih =>
        intro hl
        have he : e.target_container = none := hl e (List.mem_cons_self e es)
        have hes := ih (fun x hx => hl x (List.mem_cons_of_mem e hx))
        simp only [find_loop, he, container_matches, hes]
    unfold deception_table_find_match
    cases ht : m.table with
    | none => rfl
    | some t =>
      have hrules : m.rules = t.entries := by simp [Module.rules, ht]
      rw [hrules] at hall
      simp only [hloop t.entries hall]

/-- Witness for C7: a table with one rule targeting pid 42 and one wildcard rule,
looked up by pid 7 from two different containers. -/
theorem scope_correct_witness :
    (∀ r, deception_table_find_match (run (fresh Module.boot)
          [Op.add (some { wildcard_rule 1 none with target_pid := 42 }),
            Op.add (some (wildcard_rule 1 none))]) 1 none (some 5) 7 = some r →
        r.target_pid ≠ 42) ∧
    deception_table_find_match (run (fresh Module.boot)
        [Op.add (some { wildcard_rule 1 none with target_pid := 42 }),
          Op.add (some (wildcard_rule 1 none))]) 1 none none 7
      = deception_table_find_match (run (fresh Module.boot)
        [Op.add (some { wildcard_rule 1 none with target_pid := 42 }),
          Op.add (some (wildcard_rule 1 none))]) 1 none (some 5) 7 :=
  ⟨(scope_correct _ 1 none (some 5) 7).2.1 (by decide),
   (scope_correct _ 1 none (some 5) 7).2.2.2 (by decide) none⟩

/-! ## Lemmas on `strsep` and the command fields -/

theorem split_fields_eq (ct : List Char) :
    ∀ s : List Char, split_fields ct s =
      (strsep_scan ct s).1 :: fields_of ct (strsep_scan ct s).2 := by
  intro s
  induction s with
  | nil => rfl
  | cons c cs ih =>
    by_cases hc : c ∈ ct
    · simp only [split_fields, strsep_scan, if_pos hc, fields_of]
    · simp only [split_fields, strsep_scan, if_neg hc]
      rw [ih]

theorem strsep_fst (ct : List Char) (stringp : Option (List Char)) :
    (strsep stringp ct).1 = (fields_of ct stringp).head? := by
  cases stringp with
  | none => rfl
  | some s => simp only [strsep, fields_of, split_fields_eq ct s, List.head?_cons]

theorem strsep_snd (ct : List Char) (stringp : Option (List Char)) :
    fields_of ct (strsep stringp ct).2 = (fields_of ct stringp).tail := by
  cases stringp with
  | none => rfl
  | some s =>
    simp only [strsep]
    conv => rhs; simp only [fields_of]; rw [split_fields_eq ct s]
    rfl

/-- C8 (code behaviour): the command `add:1:x:y:z` written to a freshly initialised
table is accepted (11 bytes consumed) and links one rule whose syscall number is
the architecture's `__NR_uname`, whatever that is, and not the 1 of the command;
the container field `z` is dropped as well. -/
theorem add_command_ignores_syscall_field (NR_uname : Int) :
    deception_proc_write NR_uname WriteEnv.ok (fresh Module.boot) "add:1:x:y:z".toList
      = (⟨some ⟨[{ syscall_number := NR_uname, pattern := some ['x'],
                   replacement := some ['y'], target_container := none, target_pid := 0,
                   flags := 0, rule_id := 2 }], 1, 2⟩, true⟩, 11) := by
  rfl

/-- C9 (amended): for every add command that is accepted (allocations and the user
copy succeed, the table is initialised, the verb is `add`, a syscall field follows
it and the id handed out is not negative), the rule appended has as pattern the
third colon-separated field exactly as written when the command has one, the
empty string included, and no pattern when the command has no third field; the
same holds for the replacement and the fourth field. -/
theorem add_fields_kept_verbatim (NR_uname : Int) (m : Module) (t : deception_table)
    (buffer sc : List Char) (rest : List (List Char))
    (ht : m.table = some t)
    (hid : 0 ≤ wrap32 (t.next_rule_id + 1))
    (hfields : split_fields [':'] (c_string buffer) = ['a', 'd', 'd'] :: sc :: rest) :
    (deception_proc_write NR_uname WriteEnv.ok m buffer).2
      = wrap32 (Int.ofNat buffer.length) ∧
    (deception_proc_write NR_uname WriteEnv.ok m buffer).1.rules
      = t.entries ++ [{ syscall_number := NR_uname, pattern := rest.head?,
                        replacement := rest.tail.head?, target_container := none,
                        target_pid := 0, flags := 0,
                        rule_id := wrap32 (t.next_rule_id + 1) }] := by
  have hcmd : (strsep (some (c_string buffer)) [':']).1 = some ['a', 'd', 'd'] := by
    rw [strsep_fst]; simp only [fields_of, hfields, List.head?_cons]
  have h1 : fields_of [':'] (strsep (some (c_string buffer)) [':']).2 = sc :: rest := by
    rw [strsep_snd]; simp only [fields_of, hfields, List.tail_cons]
  have hsys : (strsep (strsep (some (c_string buffer)) [':']).2 [':']).1 = some sc := by
    rw [strsep_fst, h1, List.head?_cons]
  have h2 : fields_of [':'] (strsep (strsep (some (c_string buffer)) [':']).2 [':']).2
      = rest := by
    rw [strsep_snd, h1, List.tail_cons]
  have hpat : (strsep (strsep (strsep (some (c_string buffer)) [':']).2 [':']).2 [':']).1
      = rest.head? := by
    rw [strsep_fst, h2]
  have h3 : fields_of [':']
      (strsep (strsep (strsep (some (c_string buffer)) [':']).2 [':']).2 [':']).2
      = rest.tail := by
    rw [strsep_snd, h2]
  have hrep : (strsep (strsep (strsep (strsep (some (c_string buffer)) [':']).2
      [':']).2 [':']).2 [':']).1 = rest.tail.head? := by
    rw [strsep_fst, h3]
  have hneg : ¬ wrap32 (t.next_rule_id + 1) < 0 := by omega
  unfold deception_proc_write
  simp only [hcmd, hsys, hpat, hrep]
  cases rest.head? with
  | none =>
    cases rest.tail.head? with
    | none =>
      simp [WriteEnv.ok, deception_create_rule, deception_table_add_rule, ht, hneg,
        Module.rules]
    | some r =>
      simp [WriteEnv.ok, deception_create_rule, deception_table_add_rule, ht, hneg,
        Module.rules]
  | some p =>
    cases rest.tail.head? with
    | none =>
      simp [WriteEnv.ok, deception_create_rule, deception_table_add_rule, ht, hneg,
        Module.rules]
    | some r =>
      simp [WriteEnv.ok, deception_create_rule, deception_table_add_rule, ht, hneg,
        Module.rules]

/-- Witness for C9 (amended): the command `add:63::y` on a fresh table: the pattern
field is empty and is kept as a present empty string, the replacement is `y`. -/
theorem add_fields_kept_verbatim_witness :
    (deception_proc_write 63 WriteEnv.ok (fresh Module.boot) "add:63::y".toList).2
      = wrap32 (Int.ofNat "add:63::y".toList.length) ∧
    (deception_proc_write 63 WriteEnv.ok (fresh Module.boot) "add:63::y".toList).1.rules
      = [] ++ [{ syscall_number := 63, pattern := some [],
                 replacement := some ['y'], target_container := none,
                 target_pid := 0, flags := 0, rule_id := wrap32 (1 + 1) }] :=
  add_fields_kept_verbatim 63 (fresh Module.boot)
    { entries := [], refcount := 1, next_rule_id := 1 } "add:63::y".toList
    ['6', '3'] [[], ['y']] rfl (by decide) (by decide)

/-- C9 (counterexample): in the accepted command `add:63::y` the pattern field is the
empty string, and the rule appended holds a present empty pattern, not an absent
one; likewise the empty replacement field of `add:63:x:` is kept as a present
empty string. -/
theorem empty_field_is_present_not_absent :
    (deception_proc_write 63 WriteEnv.ok (fresh Module.boot) "add:63::y".toList).1.rules.map
        (fun e => e.pattern) = [some []] ∧
    (deception_proc_write 63 WriteEnv.ok (fresh Module.boot) "add:63:x:".toList).1.rules.map
        (fun e => e.replacement) = [some []] := by
  decide

/-- C10 (amended): an add command with no syscall field at all (the command text is
the single field `add`) never changes the module state, and when the buffer
allocation and the user copy succeed it is rejected with -EINVAL. -/
theorem add_without_syscall_rejected (NR_uname : Int) (env : WriteEnv) (m : Module)
    (buffer : List Char)
    (hfields : split_fields [':'] (c_string buffer) = [['a', 'd', 'd']]) :
    (deception_proc_write NR_uname env m buffer).1 = m ∧
    (env.kzalloc_data = true → env.copy_from_user_ok = true →
      (deception_proc_write NR_uname env m buffer).2 = -EINVAL) := by
  have hcmd : (strsep (some (c_string buffer)) [':']).1 = some ['a', 'd', 'd'] := by
    rw [strsep_fst]; simp only [fields_of, hfields, List.head?_cons]
  have h1 : fields_of [':'] (strsep (some (c_string buffer)) [':']).2 = [] := by
    rw [strsep_snd]; simp only [fields_of, hfields, List.tail_cons]
  have hsys : (strsep (strsep (some (c_string buffer)) [':']).2 [':']).1 = none := by
    rw [strsep_fst, h1]; rfl
  unfold deception_proc_write
  simp only [hcmd, hsys]
  cases env.kzalloc_data <;> cases env.copy_from_user_ok <;> simp

/-- Witness for C10 (amended): the command `add` on a table holding one rule. -/
theorem add_without_syscall_rejected_witness :
    (deception_proc_write 63 WriteEnv.ok
        (run (fresh Module.boot) [Op.add (some (wildcard_rule 1 none))]) "add".toList).1
      = run (fresh Module.boot) [Op.add (some (wildcard_rule 1 none))] ∧
    (deception_proc_write 63 WriteEnv.ok
        (run (fresh Module.boot) [Op.add (some (wildcard_rule 1 none))]) "add".toList).2
      = -EINVAL :=
  ⟨(add_without_syscall_rejected 63 WriteEnv.ok _ "add".toList (by decide)).1,
   (add_without_syscall_rejected 63 WriteEnv.ok _ "add".toList (by decide)).2 rfl rfl⟩

/-- C10 (counterexample): the add commands `add:` (empty syscall field) and `add:abc`
(syscall field not a decimal integer) are accepted on a fresh table: the write
returns its byte count, not -EINVAL, and the table holds one rule afterwards. -/
theorem add_with_bad_syscall_accepted :
    (deception_proc_write 63 WriteEnv.ok (fresh Module.boot) "add:".toList).2 = 4 ∧
    (deception_proc_write 63 WriteEnv.ok (fresh Module.boot) "add:".toList).1.rules.length
      = 1 ∧
    (deception_proc_write 63 WriteEnv.ok (fresh Module.boot) "add:abc".toList).2 = 7 ∧
    (deception_proc_write 63 WriteEnv.ok (fresh Module.boot) "add:abc".toList).1.rules.length
      = 1 ∧
    (fresh Module.boot).rules.length = 0 := by
  decide

/-! ## Second group of claims: interpreter verbs, matcher, table frame conditions -/

theorem remove_loop_some_split (rule_id : Int) :
    ∀ l l2 : List syscall_hook_entry, remove_loop rule_id l = some l2 →
      ∃ pre r post, l = pre ++ r :: post ∧ r.rule_id = rule_id ∧
        (∀ x ∈ pre, x.rule_id ≠ rule_id) ∧ l2 = pre ++ post := by
  intro l
  induction l with
  | nil => intro l2 h; simp [remove_loop] at h
  | cons e es ih =>
    intro l2 h
    simp only [remove_loop] at h
    by_cases he : e.rule_id = rule_id
    · rw [if_pos he] at h
      injection h with h
      exact ⟨[], e, es, rfl, he, by simp, by rw [← h]; rfl⟩
    · rw [if_neg he] at h
      cases hr : remove_loop rule_id es with
      | none => rw [hr] at h; cases h
      | some es2 =>
        rw [hr] at h
        injection h with h
        obtain ⟨pre, r, post, hl, hrid, hpre, hl2⟩ := ih es2 hr
        refine ⟨e :: pre, r, post, by rw [hl]; rfl, hrid, ?_, by rw [← h, hl2]; rfl⟩
        intro x hx
        rcases List.mem_cons.mp hx with hx | hx
        · rw [hx]; exact he
        · exact hpre x hx

/-- C13: `container_matches` is a total function that returns true when the rule
container is absent, false when the rule container is present and the task
container is absent, and otherwise true exactly when the two tokens are equal. -/
theorem container_matches_cases (task : Option Nat) (a b : Nat) :
    container_matches task none = true ∧
    container_matches none (some a) = false ∧
    (container_matches (some b) (some a) = true ↔ b = a) := by
  refine ⟨rfl, rfl, ?_⟩
  simp [container_matches]

/-- C15 (amended): the listing written by `deception_proc_show` is the same fixed
text for every table state, a header of two lines followed by the line
"No rules configured yet.", and the function returns 0; it does not report the
rule count. -/
theorem listing_is_constant (m : Module) :
    deception_proc_show m
      = (["Deception Framework Rules:\n", "========================\n",
          "No rules configured yet.\n"], 0) ∧
    deception_proc_show m = deception_proc_show Module.boot := by
  exact ⟨rfl, rfl⟩

/-- C15 (counterexample): an empty table and a table holding one rule have
different rule counts and yet the same listing. -/
theorem listing_same_for_different_rule_counts :
    (fresh Module.boot).rules.length = 0 ∧
    (run (fresh Module.boot) [Op.add (some (wildcard_rule 63 none))]).rules.length = 1 ∧
    deception_proc_show (fresh Module.boot)
      = deception_proc_show (run (fresh Module.boot) [Op.add (some (wildcard_rule 63 none))]) := by
  exact ⟨rfl, rfl, rfl⟩

/-- C16: on an initialised table, adding a rule built by `deception_create_rule`
leaves the rules already linked and their order as they were and appends one rule
at the end whose syscall number, pattern, replacement, target container, target
pid and flags are the values given to create and whose id is the returned id; the
id counter is incremented once (a 32-bit increment, which is the old value plus
one unless the old value is the largest int). -/
theorem add_rule_appends_created_rule (m : Module) (t : deception_table)
    (k1 k2 k3 : Bool) (syscall : Int) (pattern replacement : Option (List Char))
    (container : Option Nat) (pid : Int) (flags : Nat) (e : syscall_hook_entry)
    (ht : m.table = some t)
    (hcreate : deception_create_rule k1 k2 k3 syscall pattern replacement container pid flags
      = some e) :
    (deception_table_add_rule m (some e)).1.rules
      = t.entries ++ [{ syscall_number := syscall, pattern := pattern,
                        replacement := replacement, target_container := container,
                        target_pid := pid, flags := flags,
                        rule_id := (deception_table_add_rule m (some e)).2 }] ∧
    (deception_table_add_rule m (some e)).2 = wrap32 (t.next_rule_id + 1) ∧
    (∃ t2, (deception_table_add_rule m (some e)).1.table = some t2 ∧
      t2.next_rule_id = wrap32 (t.next_rule_id + 1) ∧ t2.refcount = t.refcount) ∧
    (deception_table_add_rule m (some e)).1.deception_enabled = m.deception_enabled ∧
    (-2147483648 ≤ t.next_rule_id → t.next_rule_id < 2147483647 →
      wrap32 (t.next_rule_id + 1) = t.next_rule_id + 1) := by
  have he : e = { syscall_number := syscall, pattern := pattern,
                  replacement := replacement, target_container := container,
                  target_pid := pid, flags := flags, rule_id := 0 } := by
    unfold deception_create_rule at hcreate
    cases k1 <;> cases k2 <;> cases k3 <;> cases pattern <;> cases replacement <;>
      simp at hcreate <;> rw [← hcreate]
  subst he
  refine ⟨?_, ?_, ?_, ?_, ?_⟩
  · simp [deception_table_add_rule, ht, Module.rules]
  · simp [deception_table_add_rule, ht]
  · simp [deception_table_add_rule, ht]
  · simp [deception_table_add_rule, ht]
  · intro h1 h2
    unfold wrap32; omega

/-- Witness for C16: a rule with pattern, replacement, container, pid and flags is
created and added to a table that already holds one rule. -/
theorem add_rule_appends_created_rule_witness :
    (deception_table_add_rule
        (run (fresh Module.boot) [Op.add (some (wildcard_rule 63 none))])
        (some { syscall_number := 63, pattern := some ['p'], replacement := some ['r'],
                target_container := some 4, target_pid := 42, flags := 5,
                rule_id := 0 })).1.rules
      = [{ wildcard_rule 63 none with rule_id := 2 }] ++
        [{ syscall_number := 63, pattern := some ['p'], replacement := some ['r'],
           target_container := some 4, target_pid := 42, flags := 5,
           rule_id := (deception_table_add_rule
              (run (fresh Module.boot) [Op.add (some (wildcard_rule 63 none))])
              (some { syscall_number := 63, pattern := some ['p'],
                      replacement := some ['r'], target_container := some 4,
                      target_pid := 42, flags := 5, rule_id := 0 })).2 }] :=
  (add_rule_appends_created_rule
    (run (fresh Module.boot) [Op.add (some (wildcard_rule 63 none))])
    ⟨[{ wildcard_rule 63 none with rule_id := 2 }], 1, 2⟩
    true true true 63 (some ['p']) (some ['r']) (some 4) 42 5 _ rfl rfl).1

/-- C17: on an initialised table `deception_table_remove_rule id` returns -ENOENT
exactly when no linked rule has that id, and then the module state is unchanged;
otherwise it returns 0 and the new list is the old one without the first rule
having that id, the other rules keeping their order, while the id counter (and
the rest of the table) stays as it was. -/
theorem remove_rule_deletes_first_with_id (m : Module) (t : deception_table) (id : Int)
    (ht : m.table = some t) :
    ((deception_table_remove_rule m id).2 = -ENOENT ↔ ∀ x ∈ t.entries, x.rule_id ≠ id) ∧
    ((∀ x ∈ t.entries, x.rule_id ≠ id) → deception_table_remove_rule m id = (m, -ENOENT)) ∧
    ((∃ x ∈ t.entries, x.rule_id = id) →
      (deception_table_remove_rule m id).2 = 0 ∧
      ∃ pre r post, t.entries = pre ++ r :: post ∧ r.rule_id = id ∧
        (∀ x ∈ pre, x.rule_id ≠ id) ∧
        (deception_table_remove_rule m id).1
          = ⟨some ⟨pre ++ post, t.refcount, t.next_rule_id⟩, m.deception_enabled⟩) := by
  cases hr : remove_loop id t.entries with
  | none =>
    have hall := (remove_loop_none_iff id t.entries).mp hr
    refine ⟨?_, ?_, ?_⟩
    · simp only [deception_table_remove_rule, ht, hr]
      exact ⟨fun _ => hall, fun _ => trivial⟩
    · intro _; simp [deception_table_remove_rule, ht, hr]
    · intro ⟨x, hx, hxid⟩; exact absurd hxid (hall x hx)
  | some es =>
    have hnot : ¬ ∀ x ∈ t.entries, x.rule_id ≠ id := by
      intro hall
      rw [(remove_loop_none_iff id t.entries).mpr hall] at hr
      cases hr
    refine ⟨?_, ?_, ?_⟩
    · simp only [deception_table_remove_rule, ht, hr]
      constructor
      · intro h; exact absurd h (by decide)
      · intro h; exact absurd h hnot
    · intro h; exact absurd h hnot
    · intro _
      obtain ⟨pre, r, post, hl, hrid, hpre, hes⟩ := remove_loop_some_split id t.entries es hr
      refine ⟨by simp [deception_table_remove_rule, ht, hr], pre, r, post, hl, hrid, hpre, ?_⟩
      simp [deception_table_remove_rule, ht, hr, hes]

/-- Witness for C17: three rules with ids 2, 3, 4; removing id 3 keeps 2 and 4 in
order, and removing id 9 is refused with -ENOENT. -/
theorem remove_rule_deletes_first_with_id_witness :
    (deception_table_remove_rule (run (fresh Module.boot)
        [Op.add (some (wildcard_rule 1 none)), Op.add (some (wildcard_rule 2 none)),
          Op.add (some (wildcard_rule 3 none))]) 9).2 = -ENOENT ∧
    (deception_table_remove_rule (run (fresh Module.boot)
        [Op.add (some (wildcard_rule 1 none)), Op.add (some (wildcard_rule 2 none)),
          Op.add (some (wildcard_rule 3 none))]) 3).2 = 0 :=
  ⟨((remove_rule_deletes_first_with_id _ _ 9 rfl).1).mpr (by decide),
   ((remove_rule_deletes_first_with_id
      (run (fresh Module.boot)
        [Op.add (some (wildcard_rule 1 none)), Op.add (some (wildcard_rule 2 none)),
          Op.add (some (wildcard_rule 3 none))])
      ⟨[{ wildcard_rule 1 none with rule_id := 2 }, { wildcard_rule 2 none with rule_id := 3 },
        { wildcard_rule 3 none with rule_id := 4 }], 1, 4⟩ 3 rfl).2.2
      ⟨{ wildcard_rule 2 none with rule_id := 3 }, by decide, rfl⟩).1⟩

/-! ## Lemmas on the verb of a command -/

theorem strsep_verb (buffer : List Char) :
    (strsep (some (c_string buffer)) [':']).1
      = some (strsep_scan [':'] (c_string buffer)).1 := rfl

theorem split_fields_head (ct s : List Char) :
    (split_fields ct s).head? = some (strsep_scan ct s).1 := by
  rw [split_fields_eq]; rfl

theorem proc_write_unknown_verb (NR_uname : Int) (env : WriteEnv) (m : Module)
    (buffer : List Char)
    (hadd : (split_fields [':'] (c_string buffer)).head? ≠ some ['a', 'd', 'd'])
    (hclear : (split_fields [':'] (c_string buffer)).head? ≠ some ['c', 'l', 'e', 'a', 'r']) :
    (deception_proc_write NR_uname env m buffer).1 = m ∧
    (env.kzalloc_data = true → env.copy_from_user_ok = true →
      (deception_proc_write NR_uname env m buffer).2 = -EINVAL) := by
  rw [split_fields_head] at hadd hclear
  have h1 : (strsep_scan [':'] (c_string buffer)).1 ≠ ['a', 'd', 'd'] :=
    fun h => hadd (by rw [h])
  have h2 : (strsep_scan [':'] (c_string buffer)).1 ≠ ['c', 'l', 'e', 'a', 'r'] :=
    fun h => hclear (by rw [h])
  unfold deception_proc_write
  simp only [strsep_verb, if_neg h1, if_neg h2]
  cases env.kzalloc_data <;> cases env.copy_from_user_ok <;> simp

theorem proc_write_clear_verb (NR_uname : Int) (env : WriteEnv) (m : Module)
    (buffer : List Char) (hd : env.kzalloc_data = true) (hc : env.copy_from_user_ok = true)
    (hclear : (split_fields [':'] (c_string buffer)).head? = some ['c', 'l', 'e', 'a', 'r']) :
    deception_proc_write NR_uname env m buffer
      = ((deception_table_clear m).1, wrap32 (Int.ofNat buffer.length)) := by
  rw [split_fields_head] at hclear
  injection hclear with hclear
  unfold deception_proc_write
  simp [strsep_verb, hclear, hd, hc]

theorem add_rule_rules (m : Module) (entry : Option syscall_hook_entry) :
    ∃ extra, (deception_table_add_rule m entry).1.rules = m.rules ++ extra := by
  cases ht : m.table with
  | none => exact ⟨[], by simp [deception_table_add_rule, ht]⟩
  | some t =>
    cases entry with
    | none => exact ⟨[], by simp [deception_table_add_rule, ht]⟩
    | some e =>
      exact ⟨[{ e with rule_id := wrap32 (t.next_rule_id + 1) }],
        by simp [deception_table_add_rule, ht, Module.rules]⟩

theorem proc_write_add_verb (NR_uname : Int) (env : WriteEnv) (m : Module)
    (buffer : List Char)
    (hadd : (split_fields [':'] (c_string buffer)).head? = some ['a', 'd', 'd']) :
    ∃ extra, (deception_proc_write NR_uname env m buffer).1.rules = m.rules ++ extra := by
  rw [split_fields_head] at hadd
  injection hadd with hadd
  unfold deception_proc_write
  simp only [strsep_verb, hadd, if_true]
  by_cases hd : env.kzalloc_data = false
  · exact ⟨[], by simp [hd]⟩
  · by_cases hc : env.copy_from_user_ok = false
    · exact ⟨[], by simp [hd, hc]⟩
    · simp only [if_neg hd, if_neg hc]
      split
      · exact ⟨[], by simp⟩
      · split
        · exact ⟨[], by simp⟩
        · rename_i entry _
          split
          · exact add_rule_rules m (some entry)
          · exact add_rule_rules m (some entry)

theorem proc_write_ret (NR_uname : Int) (env : WriteEnv) (m : Module) (buffer : List Char) :
    (deception_proc_write NR_uname env m buffer).2 = -ENOMEM ∨
    (deception_proc_write NR_uname env m buffer).2 = -EFAULT ∨
    (deception_proc_write NR_uname env m buffer).2 = -EINVAL ∨
    (deception_proc_write NR_uname env m buffer).2 = wrap32 (Int.ofNat buffer.length) := by
  unfold deception_proc_write
  simp only [strsep_verb]
  by_cases hd : env.kzalloc_data = false
  · left; simp [hd]
  · by_cases hc : env.copy_from_user_ok = false
    · right; left; simp [hd, hc]
    · simp only [if_neg hd, if_neg hc]
      split
      · split
        · right; right; left; rfl
        · split
          · left; rfl
          · split
            · right; right; left; rfl
            · right; right; right; rfl
      · split
        · right; right; right; rfl
        · right; right; left; rfl

/-- C11: a command whose verb (the text before the first colon) is neither `add`
nor `clear` leaves the module state unchanged and, once the command has been
copied in, is answered with -EINVAL; and every write that is not answered with an
error code returns the number of bytes of the input (a write carries fewer than
2^31 bytes). -/
theorem unknown_verb_rejected (NR_uname : Int) (env : WriteEnv) (m : Module)
    (buffer : List Char) :
    ((split_fields [':'] (c_string buffer)).head? ≠ some ['a', 'd', 'd'] →
      (split_fields [':'] (c_string buffer)).head? ≠ some ['c', 'l', 'e', 'a', 'r'] →
      (deception_proc_write NR_uname env m buffer).1 = m ∧
      (env.kzalloc_data = true → env.copy_from_user_ok = true →
        (deception_proc_write NR_uname env m buffer).2 = -EINVAL)) ∧
    (buffer.length < 2147483648 → 0 ≤ (deception_proc_write NR_uname env m buffer).2 →
      (deception_proc_write NR_uname env m buffer).2 = Int.ofNat buffer.length) := by
  constructor
  · intro hadd hclear
    exact proc_write_unknown_verb NR_uname env m buffer hadd hclear
  · intro hlen hret
    have hw : wrap32 (Int.ofNat buffer.length) = Int.ofNat buffer.length := by
      apply wrap32_small
      · simp only [Int.ofNat_eq_coe]; omega
      · simp only [Int.ofNat_eq_coe]; omega
    rcases proc_write_ret NR_uname env m buffer with h | h | h | h
    · rw [h] at hret; exact absurd hret (by decide)
    · rw [h] at hret; exact absurd hret (by decide)
    · rw [h] at hret; exact absurd hret (by decide)
    · rw [h, hw]

/-- Witness for C11: the command `remove:2` has an unknown verb and is refused on a
table holding one rule; the command `clear` is accepted and returns its 5 bytes. -/
theorem unknown_verb_rejected_witness :
    ((deception_proc_write 63 WriteEnv.ok
        (run (fresh Module.boot) [Op.add (some (wildcard_rule 63 none))])
        "remove:2".toList).1
      = run (fresh Module.boot) [Op.add (some (wildcard_rule 63 none))] ∧
     (deception_proc_write 63 WriteEnv.ok
        (run (fresh Module.boot) [Op.add (some (wildcard_rule 63 none))])
        "remove:2".toList).2 = -EINVAL) ∧
    (deception_proc_write 63 WriteEnv.ok
        (run (fresh Module.boot) [Op.add (some (wildcard_rule 63 none))])
        "clear".toList).2 = Int.ofNat "clear".toList.length :=
  ⟨⟨((unknown_verb_rejected 63 WriteEnv.ok _ "remove:2".toList).1
        (by decide) (by decide)).1,
    ((unknown_verb_rejected 63 WriteEnv.ok _ "remove:2".toList).1
        (by decide) (by decide)).2 rfl rfl⟩,
   (unknown_verb_rejected 63 WriteEnv.ok
      (run (fresh Module.boot) [Op.add (some (wildcard_rule 63 none))])
      "clear".toList).2 (by decide) (by decide)⟩

theorem clear_rules_nil (m : Module) : (deception_table_clear m).1.rules = [] := by
  cases ht : m.table with
  | none => simp [deception_table_clear, ht, Module.rules]
  | some t => simp [deception_table_clear, ht, Module.rules, clear_loop_nil]

theorem clear_table_emptied (m : Module) (t : deception_table) (ht : m.table = some t) :
    (deception_table_clear m).1
      = (⟨some ⟨[], t.refcount, t.next_rule_id⟩, m.deception_enabled⟩ : Module) := by
  simp [deception_table_clear, ht, clear_loop_nil]

/-- C20: once the command has been copied in, the verb is the text before the
first colon of the command string, compared exactly: when it is `clear` the
write returns the byte count and leaves no rule in the table (an initialised
table keeps its counter and flag and has an empty list); when it is anything
else no linked rule is removed; `clear:anything` clears, and `clear` followed by
a newline is refused with -EINVAL and changes nothing. -/
theorem verb_is_exact_leading_field (NR_uname : Int) (env : WriteEnv) (m : Module)
    (buffer : List Char) (hd : env.kzalloc_data = true) (hc : env.copy_from_user_ok = true) :
    ((split_fields [':'] (c_string buffer)).head? = some ['c', 'l', 'e', 'a', 'r'] →
      deception_proc_write NR_uname env m buffer
        = ((deception_table_clear m).1, wrap32 (Int.ofNat buffer.length))) ∧
    ((split_fields [':'] (c_string buffer)).head? = some ['c', 'l', 'e', 'a', 'r'] →
      (deception_proc_write NR_uname env m buffer).1.rules = [] ∧
      (deception_proc_write NR_uname env m buffer).2 = wrap32 (Int.ofNat buffer.length) ∧
      (deception_proc_write NR_uname env m buffer).1.deception_enabled
        = m.deception_enabled ∧
      ∀ t, m.table = some t →
        (deception_proc_write NR_uname env m buffer).1.table
          = some ⟨[], t.refcount, t.next_rule_id⟩) ∧
    ((split_fields [':'] (c_string buffer)).head? ≠ some ['c', 'l', 'e', 'a', 'r'] →
      ∃ extra, (deception_proc_write NR_uname env m buffer).1.rules = m.rules ++ extra) ∧
    deception_proc_write NR_uname env m "clear:anything".toList
      = ((deception_table_clear m).1, 14) ∧
    (deception_proc_write NR_uname env m "clear:anything".toList).1.rules = [] ∧
    deception_proc_write NR_uname env m ("clear".toList ++ [Char.ofNat 10])
      = (m, -EINVAL) := by
  refine ⟨?_, ?_, ?_, ?_, ?_, ?_⟩
  · intro hclear
    exact proc_write_clear_verb NR_uname env m buffer hd hc hclear
  · intro hclear
    rw [proc_write_clear_verb NR_uname env m buffer hd hc hclear]
    refine ⟨clear_rules_nil m, rfl, ?_, ?_⟩
    · cases ht : m.table with
      | none => simp [deception_table_clear, ht]
      | some t => simp [deception_table_clear, ht]
    · intro t ht
      show (deception_table_clear m).1.table = _
      rw [clear_table_emptied m t ht]
  · intro hclear
    by_cases hadd : (split_fields [':'] (c_string buffer)).head? = some ['a', 'd', 'd']
    · exact proc_write_add_verb NR_uname env m buffer hadd
    · exact ⟨[], by
        rw [(proc_write_unknown_verb NR_uname env m buffer hadd hclear).1]; simp⟩
  · rw [proc_write_clear_verb NR_uname env m "clear:anything".toList hd hc (by decide)]
    rfl
  · rw [proc_write_clear_verb NR_uname env m "clear:anything".toList hd hc (by decide)]
    exact clear_rules_nil m
  · have h := proc_write_unknown_verb NR_uname env m ("clear".toList ++ [Char.ofNat 10])
      (by decide) (by decide)
    exact Prod.ext h.1 (h.2 hd hc)

/-- Witness for C20: on a table holding one rule the command `clear` leaves no
rule and returns 5, and `clear` plus newline is refused and keeps the rule. -/
theorem verb_is_exact_leading_field_witness :
    (run (fresh Module.boot) [Op.add (some (wildcard_rule 63 none))]).rules
      = [{ wildcard_rule 63 none with rule_id := 2 }] ∧
    (deception_proc_write 63 WriteEnv.ok
        (run (fresh Module.boot) [Op.add (some (wildcard_rule 63 none))])
        "clear".toList).1.rules = [] ∧
    (deception_proc_write 63 WriteEnv.ok
        (run (fresh Module.boot) [Op.add (some (wildcard_rule 63 none))])
        "clear".toList).2 = wrap32 (Int.ofNat "clear".toList.length) ∧
    (deception_proc_write 63 WriteEnv.ok
        (run (fresh Module.boot) [Op.add (some (wildcard_rule 63 none))])
        "clear".toList).1.table = some ⟨[], 1, 2⟩ ∧
    deception_proc_write 63 WriteEnv.ok
        (run (fresh Module.boot) [Op.add (some (wildcard_rule 63 none))])
        ("clear".toList ++ [Char.ofNat 10])
      = (run (fresh Module.boot) [Op.add (some (wildcard_rule 63 none))], -EINVAL) :=
  ⟨rfl,
   ((verb_is_exact_leading_field 63 WriteEnv.ok
      (run (fresh Module.boot) [Op.add (some (wildcard_rule 63 none))])
      "clear".toList rfl rfl).2.1 (by decide)).1,
   ((verb_is_exact_leading_field 63 WriteEnv.ok
      (run (fresh Module.boot) [Op.add (some (wildcard_rule 63 none))])
      "clear".toList rfl rfl).2.1 (by decide)).2.1,
   ((verb_is_exact_leading_field 63 WriteEnv.ok
      (run (fresh Module.boot) [Op.add (some (wildcard_rule 63 none))])
      "clear".toList rfl rfl).2.1 (by decide)).2.2.2
      ⟨[{ wildcard_rule 63 none with rule_id := 2 }], 1, 2⟩ rfl,
   (verb_is_exact_leading_field 63 WriteEnv.ok
      (run (fresh Module.boot) [Op.add (some (wildcard_rule 63 none))])
      "clear".toList rfl rfl).2.2.2.2.2⟩

theorem run_add_clear_cycles (e : syscall_hook_entry) (r : Int) (b : Bool) :
    ∀ (n : Nat) (c : Int), wrap32 c = c →
      run (⟨some ⟨[], r, c⟩, b⟩ : Module) (add_clear_cycles e n)
        = (⟨some ⟨[], r, wrap32 (c + Int.ofNat n)⟩, b⟩ : Module) := by
  intro n
  induction n with
  | zero =>
    intro c hc
    simp only [add_clear_cycles, run, Int.ofNat_eq_coe, Nat.cast_zero, add_zero, hc]
  | succ n ih =>
    intro c hc
    have hstep : step (step (⟨some ⟨[], r, c⟩, b⟩ : Module) (Op.add (some e))) Op.clear
        = (⟨some ⟨[], r, wrap32 (c + 1)⟩, b⟩ : Module) := by
      simp [step, deception_table_add_rule, deception_table_clear, clear_loop]
    simp only [add_clear_cycles, run]
    rw [hstep, ih (wrap32 (c + 1)) (by unfold wrap32; omega), wrap32_add_wrap]
    congr 4
    simp only [Int.ofNat_eq_coe, Nat.cast_add, Nat.cast_one]
    omega

/-- C19 (code behaviour): after 2^31 - 2 rounds of add and clear on a fresh table
the counter holds the largest int; the next `deception_table_add_rule` links its
entry and returns -2^31, and the command `add:63` written in that state is
answered with -EINVAL although its rule is in the table. -/
theorem negative_id_returned_for_linked_entry :
    (deception_table_add_rule
        (run (fresh Module.boot) (add_clear_cycles (wildcard_rule 63 none) 2147483646))
        (some (wildcard_rule 63 none))).2 = -2147483648 ∧
    (deception_table_add_rule
        (run (fresh Module.boot) (add_clear_cycles (wildcard_rule 63 none) 2147483646))
        (some (wildcard_rule 63 none))).1.rules
      = [{ wildcard_rule 63 none with rule_id := -2147483648 }] ∧
    (deception_proc_write 63 WriteEnv.ok
        (run (fresh Module.boot) (add_clear_cycles (wildcard_rule 63 none) 2147483646))
        "add:63".toList).2 = -EINVAL ∧
    (deception_proc_write 63 WriteEnv.ok
        (run (fresh Module.boot) (add_clear_cycles (wildcard_rule 63 none) 2147483646))
        "add:63".toList).1.rules
      = [{ wildcard_rule 63 none with rule_id := -2147483648 }] := by
  have hfresh : fresh Module.boot = (⟨some ⟨[], 1, 1⟩, true⟩ : Module) := rfl
  rw [hfresh, run_add_clear_cycles (wildcard_rule 63 none) 1 true 2147483646 1 (by decide)]
  decide

/-! ## The uname hook -/

theorem strncpy_length : ∀ (n : Nat) (dest src : List Char),
    (strncpy dest src n).length = dest.length := by
  intro n
  induction n with
  | zero => intro dest src; simp [strncpy]
  | succ n ih =>
    intro dest src
    cases dest with
    | nil => simp [strncpy]
    | cons d ds =>
      cases src with
      | nil => simp [strncpy, ih]
      | cons c cs => simp [strncpy, ih]

theorem mem_set_self (a : Char) : ∀ (l : List Char) (n : Nat), n < l.length → a ∈ l.set n a := by
  intro l
  induction l with
  | nil => intro n h; simp at h
  | cons d ds ih =>
    intro n h
    cases n with
    | zero => simp
    | succ n =>
      simp only [List.set_cons_succ, List.mem_cons]
      right
      exact ih n (by simpa using h)

theorem c_string_nil_of_head (l : List Char) : c_string (NUL :: l) = [] := by
  simp [c_string, NUL]

theorem c_string_cons (c : Char) (l : List Char) (h : c ≠ NUL) :
    c_string (c :: l) = c :: c_string l := by
  have h2 : c ≠ Char.ofNat 0 := h
  simp [c_string, h2]

theorem c_string_strncpy_set : ∀ (r : List Char) (n : Nat) (dest : List Char),
    r.length ≤ n → (∀ c ∈ r, c ≠ NUL) → n < dest.length →
      c_string ((strncpy dest r n).set n NUL) = r := by
  intro r
  induction r with
  | nil =>
    intro n dest _ _ hn
    cases dest with
    | nil => simp at hn
    | cons d ds =>
      cases n with
      | zero => simp only [strncpy, List.set_cons_zero]; exact c_string_nil_of_head ds
      | succ n => simp only [strncpy, List.set_cons_succ]; exact c_string_nil_of_head _
  | cons c cs ih =>
    intro n dest hlen hnul hn
    cases dest with
    | nil => simp at hn
    | cons d ds =>
      cases n with
      | zero => simp at hlen
      | succ n =>
        simp only [strncpy, List.set_cons_succ]
        rw [c_string_cons c _ (hnul c (List.mem_cons_self c cs))]
        rw [ih n ds (by simpa using hlen)
          (fun x hx => hnul x (List.mem_cons_of_mem c hx)) (by simpa using hn)]

theorem uname_hook_hit (NR_uname : Int) (env : UnameEnv) (m : Module)
    (rule : syscall_hook_entry)
    (hhit : deception_table_find_match m NR_uname none get_current_container env.current_pid
      = some rule) :
    deception_uname_hook NR_uname env m =
      if env.copy_to_user_ok = false then (-EFAULT, none)
      else
        match env.override_release (uname_reply rule env.utsname).release with
        | none => (-EFAULT, some (uname_reply rule env.utsname))
        | some rel =>
          match env.override_architecture (set_release (uname_reply rule env.utsname) rel) with
          | none => (-EFAULT, some (set_release (uname_reply rule env.utsname) rel))
          | some u => (0, some u) := by
  simp only [deception_uname_hook, hhit]

theorem uname_reply_other_fields (rule : syscall_hook_entry) (uts : new_utsname) :
    (uname_reply rule uts).nodename = uts.nodename ∧
    (uname_reply rule uts).release = uts.release ∧
    (uname_reply rule uts).version = uts.version ∧
    (uname_reply rule uts).machine = uts.machine ∧
    (uname_reply rule uts).domainname = uts.domainname := by
  unfold uname_reply
  cases rule.replacement with
  | none => exact ⟨rfl, rfl, rfl, rfl, rfl⟩
  | some r =>
    by_cases h : strlen r < NEW_UTS_LEN
    · simp [h]
    · simp [h]

/-- C14: on a hit the structure that `deception_uname_hook` copies to the caller
has the genuine nodename, release, version, machine and domainname; a failed copy
to the caller is answered with -EFAULT, as is a fault in either kernel override,
and no other error is returned; on success the caller's buffer holds that
structure after the kernel's release and architecture overrides, which for a
caller they leave alone is the structure itself. -/
theorem uname_hit_only_sysname_differs (NR_uname : Int) (env : UnameEnv) (m : Module)
    (rule : syscall_hook_entry)
    (hhit : deception_table_find_match m NR_uname none get_current_container env.current_pid
      = some rule) :
    ((uname_reply rule env.utsname).nodename = env.utsname.nodename ∧
     (uname_reply rule env.utsname).release = env.utsname.release ∧
     (uname_reply rule env.utsname).version = env.utsname.version ∧
     (uname_reply rule env.utsname).machine = env.utsname.machine ∧
     (uname_reply rule env.utsname).domainname = env.utsname.domainname) ∧
    (env.copy_to_user_ok = false →
      deception_uname_hook NR_uname env m = (-EFAULT, none)) ∧
    ((deception_uname_hook NR_uname env m).1 = 0 ∨
      (deception_uname_hook NR_uname env m).1 = -EFAULT) ∧
    ((deception_uname_hook NR_uname env m).1 = 0 →
      ∃ rel, env.override_release env.utsname.release = some rel ∧
        (deception_uname_hook NR_uname env m).2
          = env.override_architecture (set_release (uname_reply rule env.utsname) rel)) ∧
    (env.copy_to_user_ok = true → (∀ r, env.override_release r = some r) →
      (∀ u, env.override_architecture u = some u) →
      deception_uname_hook NR_uname env m = (0, some (uname_reply rule env.utsname))) := by
  have hfields := uname_reply_other_fields rule env.utsname
  have hrel : (uname_reply rule env.utsname).release = env.utsname.release := hfields.2.1
  refine ⟨hfields, ?_⟩
  rw [uname_hook_hit NR_uname env m rule hhit, hrel]
  refine ⟨?_, ?_, ?_, ?_⟩
  · intro hc; simp [hc]
  · by_cases hc : env.copy_to_user_ok = false
    · right; simp [hc]
    · cases h1 : env.override_release env.utsname.release with
      | none => right; simp [hc]
      | some rel =>
        cases h2 : env.override_architecture
            (set_release (uname_reply rule env.utsname) rel) with
        | none => right; simp [hc, h2]
        | some u => left; simp [hc, h2]
  · by_cases hc : env.copy_to_user_ok = false
    · simp [hc, EFAULT]
    · cases h1 : env.override_release env.utsname.release with
      | none => simp [hc, EFAULT]
      | some rel =>
        cases h2 : env.override_architecture
            (set_release (uname_reply rule env.utsname) rel) with
        | none => simp [hc, h2, EFAULT]
        | some u => simp [hc, h2]
  · intro hc hr ha
    have hset : set_release (uname_reply rule env.utsname) env.utsname.release
        = uname_reply rule env.utsname := by
      rw [← hrel]; rfl
    simp [hc, hr, ha, hset]

/-- Witness for C14: a table with one wildcard uname rule with replacement `Fake`,
queried by pid 7 in the sample environment. -/
theorem uname_hit_only_sysname_differs_witness :
    (uname_reply { wildcard_rule 63 (some "Fake".toList) with rule_id := 2 }
        sample_utsname).release = sample_utsname.release ∧
    deception_uname_hook 63 sample_uname_env
        (run (fresh Module.boot) [Op.add (some (wildcard_rule 63 (some "Fake".toList)))])
      = (0, some (uname_reply { wildcard_rule 63 (some "Fake".toList) with rule_id := 2 }
          sample_utsname)) :=
  ⟨(uname_hit_only_sysname_differs 63 sample_uname_env
      (run (fresh Module.boot) [Op.add (some (wildcard_rule 63 (some "Fake".toList)))])
      { wildcard_rule 63 (some "Fake".toList) with rule_id := 2 } (by decide)).1.2.1,
   (uname_hit_only_sysname_differs 63 sample_uname_env
      (run (fresh Module.boot) [Op.add (some (wildcard_rule 63 (some "Fake".toList)))])
      { wildcard_rule 63 (some "Fake".toList) with rule_id := 2 } (by decide)).2.2.2.2
      rfl (fun _ => rfl) (fun _ => rfl)⟩

theorem uname_hook_delivers (NR_uname : Int) (env : UnameEnv) (m : Module)
    (rule : syscall_hook_entry)
    (hhit : deception_table_find_match m NR_uname none get_current_container env.current_pid
      = some rule)
    (hcopy : env.copy_to_user_ok = true) :
    ∃ u, (deception_uname_hook NR_uname env m).2 = some u ∧
      ((∀ v w, env.override_architecture v = some w → w.sysname = v.sysname) →
        u.sysname = (uname_reply rule env.utsname).sysname) := by
  rw [uname_hook_hit NR_uname env m rule hhit]
  have hc : ¬ env.copy_to_user_ok = false := by simp [hcopy]
  cases h1 : env.override_release (uname_reply rule env.utsname).release with
  | none =>
    exact ⟨uname_reply rule env.utsname, by simp [hc], fun _ => rfl⟩
  | some rel =>
    cases h2 : env.override_architecture
        (set_release (uname_reply rule env.utsname) rel) with
    | none =>
      exact ⟨set_release (uname_reply rule env.utsname) rel, by simp [hc, h2], fun _ => rfl⟩
    | some w =>
      exact ⟨w, by simp [hc, h2],
        fun harch => harch (set_release (uname_reply rule env.utsname) rel) w h2⟩

theorem uname_hook_returns_zero (NR_uname : Int) (env : UnameEnv) (m : Module)
    (rule : syscall_hook_entry)
    (hhit : deception_table_find_match m NR_uname none get_current_container env.current_pid
      = some rule)
    (hcopy : env.copy_to_user_ok = true)
    (hrel : ∀ r, ∃ r2, env.override_release r = some r2)
    (harch : ∀ v, ∃ w, env.override_architecture v = some w) :
    (deception_uname_hook NR_uname env m).1 = 0 := by
  rw [uname_hook_hit NR_uname env m rule hhit]
  have hc : ¬ env.copy_to_user_ok = false := by simp [hcopy]
  obtain ⟨rel, h1⟩ := hrel (uname_reply rule env.utsname).release
  obtain ⟨w, h2⟩ := harch (set_release (uname_reply rule env.utsname) rel)
  simp [hc, h1, h2]

/-- C18: on a hit of `deception_uname_hook` whose copy to the caller succeeds, the
caller's buffer is written, and (the kernel's architecture override leaving the
sysname alone) the sysname it holds reads as the rule's replacement when the
replacement is present and at most 63 characters long, and is the genuine
sysname, byte for byte, when the replacement is absent or 64 or more characters
long; in every case the delivered field has `__NEW_UTS_LEN + 1` bytes and holds
a NUL; the hook returns 0 when neither kernel override faults. The genuine
sysname field has `__NEW_UTS_LEN + 1` bytes and holds a NUL. The same facts hold
of the structure `uname_reply` that the hook copies out. -/
theorem uname_sysname_replacement (rule : syscall_hook_entry) (uts : new_utsname)
    (hlen : uts.sysname.length = NEW_UTS_LEN + 1) (hnul : NUL ∈ uts.sysname) :
    (∀ r, rule.replacement = some r → r.length ≤ 63 → (∀ c ∈ r, c ≠ NUL) →
      c_string (uname_reply rule uts).sysname = r) ∧
    (rule.replacement = none → (uname_reply rule uts).sysname = uts.sysname) ∧
    (∀ r, rule.replacement = some r → 64 ≤ r.length →
      (uname_reply rule uts).sysname = uts.sysname) ∧
    NUL ∈ (uname_reply rule uts).sysname ∧
    (uname_reply rule uts).sysname.length = NEW_UTS_LEN + 1 ∧
    (∀ (NR_uname : Int) (env : UnameEnv) (m : Module),
      env.utsname = uts →
      deception_table_find_match m NR_uname none get_current_container env.current_pid
        = some rule →
      env.copy_to_user_ok = true →
      (∀ v w, env.override_architecture v = some w → w.sysname = v.sysname) →
      ∃ u, (deception_uname_hook NR_uname env m).2 = some u ∧
        (∀ r, rule.replacement = some r → r.length ≤ 63 → (∀ c ∈ r, c ≠ NUL) →
          c_string u.sysname = r) ∧
        (rule.replacement = none → u.sysname = uts.sysname) ∧
        (∀ r, rule.replacement = some r → 64 ≤ r.length → u.sysname = uts.sysname) ∧
        NUL ∈ u.sysname ∧
        u.sysname.length = NEW_UTS_LEN + 1 ∧
        ((∀ r, ∃ r2, env.override_release r = some r2) →
          (∀ v, ∃ w, env.override_architecture v = some w) →
          (deception_uname_hook NR_uname env m).1 = 0)) := by
  have h63 : 63 < uts.sysname.length := by rw [hlen]; decide
  have p1 : ∀ r, rule.replacement = some r → r.length ≤ 63 → (∀ c ∈ r, c ≠ NUL) →
      c_string (uname_reply rule uts).sysname = r := by
    intro r hr hle hnn
    have hlt : strlen r < NEW_UTS_LEN := by
      show r.length < 64
      omega
    simp only [uname_reply, hr, if_pos hlt]
    exact c_string_strncpy_set r 63 uts.sysname hle hnn h63
  have p2 : rule.replacement = none → (uname_reply rule uts).sysname = uts.sysname := by
    intro hr
    simp only [uname_reply, hr]
  have p3 : ∀ r, rule.replacement = some r → 64 ≤ r.length →
      (uname_reply rule uts).sysname = uts.sysname := by
    intro r hr hge
    have hlt : ¬ strlen r < NEW_UTS_LEN := by
      show ¬ r.length < 64
      omega
    simp only [uname_reply, hr, if_neg hlt]
  have p4 : NUL ∈ (uname_reply rule uts).sysname := by
    unfold uname_reply
    cases rule.replacement with
    | none => exact hnul
    | some r =>
      by_cases h : strlen r < NEW_UTS_LEN
      · simp only [if_pos h]
        exact mem_set_self NUL _ 63 (by rw [strncpy_length]; exact h63)
      · simp only [if_neg h]; exact hnul
  have p5 : (uname_reply rule uts).sysname.length = NEW_UTS_LEN + 1 := by
    unfold uname_reply
    cases rule.replacement with
    | none => exact hlen
    | some r =>
      by_cases h : strlen r < NEW_UTS_LEN
      · simp only [if_pos h, List.length_set, strncpy_length]; exact hlen
      · simp only [if_neg h]; exact hlen
  refine ⟨p1, p2, p3, p4, p5, ?_⟩
  intro NR_uname env m huts hhit hcopy harch
  obtain ⟨u, hu, hsys⟩ := uname_hook_delivers NR_uname env m rule hhit hcopy
  have hs : u.sysname = (uname_reply rule uts).sysname := by
    rw [← huts]; exact hsys harch
  refine ⟨u, hu, ?_, ?_, ?_, ?_, ?_, ?_⟩
  · intro r hr hle hnn; rw [hs]; exact p1 r hr hle hnn
  · intro hr; rw [hs]; exact p2 hr
  · intro r hr hge; rw [hs]; exact p3 r hr hge
  · rw [hs]; exact p4
  · rw [hs]; exact p5
  · intro hrel hall
    exact uname_hook_returns_zero NR_uname env m rule hhit hcopy hrel hall

/-- Witness for C18: a table holds one wildcard uname rule with the replacement
`Linux-Fake`; the hook called by pid 7 in the sample environment writes the
caller's buffer, and its sysname reads `Linux-Fake` and holds a NUL. -/
theorem uname_sysname_replacement_witness :
    ∃ u, (deception_uname_hook 63 sample_uname_env
        (run (fresh Module.boot)
          [Op.add (some (wildcard_rule 63 (some "Linux-Fake".toList)))])).2 = some u ∧
      c_string u.sysname = "Linux-Fake".toList ∧ NUL ∈ u.sysname :=
  match (uname_sysname_replacement
      { wildcard_rule 63 (some "Linux-Fake".toList) with rule_id := 2 } sample_utsname
      (by decide) (by decide)).2.2.2.2.2 63 sample_uname_env
      (run (fresh Module.boot) [Op.add (some (wildcard_rule 63 (some "Linux-Fake".toList)))])
      rfl (by decide) rfl (fun _ _ h => by cases h; rfl) with
  | ⟨u, hu, h1, _, _, h4, _, _⟩ => ⟨u, hu, h1 "Linux-Fake".toList rfl (by decide) (by decide), h4⟩

end Deception
